import Mathlib

/-!
# Verification of the md-attachment-link-fixer engine

Shallow embedding of `src/md_link_fixer/core.py` (and of the legacy
single-file pipeline `src/md_link_fixer.py`, whose component functions are
line-for-line identical to `core.py`; only `run_pipeline` orders its phases
differently).  Paths are modelled as POSIX strings (`os.sep = "/"`), the
filesystem as an association list from absolute normalized paths to file
contents, and the wall clock / random generator as an explicit stream of
values consumed by `generate_unique_filename`.
-/

namespace MdFix

/-! ## String primitives

All string operations are implemented over `List Char` (Python `str`
semantics are character-based); the `String` wrappers below keep the rest
of the development readable. -/

/-- Python `str.lower` (ASCII fragment; `Char.toLower` lowers exactly
`A`–`Z`). -/
def strToLower (s : String) : String := String.mk (s.toList.map Char.toLower)

/-- Python `str.startswith`. -/
def strStartsWith (s pre : String) : Bool := pre.toList.isPrefixOf s.toList

/-- Python `str.endswith`. -/
def strEndsWith (s suf : String) : Bool := suf.toList.isSuffixOf s.toList

/-- Python `str.strip()` (ASCII whitespace fragment). -/
def strTrim (s : String) : String :=
  String.mk (((s.toList.dropWhile Char.isWhitespace).reverse.dropWhile
    Char.isWhitespace).reverse)

def splitOnCharAux (sep : Char) : List Char → List Char → List (List Char)
  | acc, [] => [acc.reverse]
  | acc, c :: rest =>
    if c = sep then acc.reverse :: splitOnCharAux sep [] rest
    else splitOnCharAux sep (c :: acc) rest

/-- Python `s.split(sep)` for a one-character separator. -/
def splitOnChar (sep : Char) (s : String) : List String :=
  (splitOnCharAux sep [] s.toList).map String.mk

def interList (sep : List Char) : List (List Char) → List Char
  | [] => []
  | [x] => x
  | x :: xs => x ++ sep ++ interList sep xs

/-- Python `sep.join(l)`. -/
def joinWith (sep : String) (l : List String) : String :=
  String.mk (interList sep.toList (l.map String.toList))

/-- Substring containment, mirroring Python's `sub in s`. -/
def strContains (s sub : String) : Bool :=
  s.toList.tails.any (fun t => sub.toList.isPrefixOf t)

/-- Decimal digit characters of a natural number (auxiliary, fuel-based). -/
def natDigitsAux : Nat → Nat → List Char
  | 0, _ => []
  | fuel + 1, n =>
    if n < 10 then [Char.ofNat ('0'.toNat + n)]
    else natDigitsAux fuel (n / 10) ++ [Char.ofNat ('0'.toNat + n % 10)]

/-- Decimal digit characters of a natural number. -/
def natDigits (n : Nat) : List Char := natDigitsAux (n + 1) n

/-- Zero-padded decimal rendering, mirroring Python's `"%0wd" % n` /
`strftime` numeric fields. -/
def padNum (w n : Nat) : String :=
  let ds := natDigits n
  String.mk (List.replicate (w - ds.length) '0' ++ ds)

/-- `posixpath.join` for two components. -/
def joinPath (a b : String) : String :=
  if strStartsWith b "/" then b
  else if a = "" || strEndsWith a "/" then a ++ b
  else a ++ "/" ++ b

/-- Component loop of `posixpath.normpath`: `isAbs` records whether the path
had initial slashes, `acc` is the reversed list of kept components. -/
def normAcc (isAbs : Bool) : List String → List String → List String
  | acc, [] => acc
  | acc, c :: rest =>
    if c = "" ∨ c = "." then normAcc isAbs acc rest
    else if c ≠ ".." ∨ (¬ isAbs ∧ acc = []) ∨ acc.head? = some ".." then
      normAcc isAbs (c :: acc) rest
    else
      match acc with
      | _ :: acc' => normAcc isAbs acc' rest
      | [] => normAcc isAbs acc rest

/-- `posixpath.normpath`. -/
def normPath (p : String) : String :=
  if p = "" then "."
  else
    let slashes : Nat :=
      if strStartsWith p "//" ∧ ¬ strStartsWith p "///" then 2
      else if strStartsWith p "/" then 1 else 0
    let comps := (normAcc (slashes > 0) [] (splitOnChar '/' p)).reverse
    let res := String.mk (List.replicate slashes '/') ++ joinWith "/" comps
    if res = "" then "." else res

/-- Length of the common leading run of two component lists. -/
def commonLen : List String → List String → Nat
  | a :: as, b :: bs => if a = b then commonLen as bs + 1 else 0
  | _, _ => 0

/-- `posixpath.relpath`; the callers only apply it to absolute paths, for
which Python's internal `abspath` coincides with `normpath`. -/
def relPath (path start : String) : String :=
  let pl := (splitOnChar '/' (normPath path)).filter (· ≠ "")
  let sl := (splitOnChar '/' (normPath start)).filter (· ≠ "")
  let k := commonLen pl sl
  let rl := List.replicate (sl.length - k) ".." ++ pl.drop k
  if rl = [] then "." else joinWith "/" rl

/-- `posixpath.basename`. -/
def baseName (p : String) : String := (splitOnChar '/' p).getLastD ""

/-- `posixpath.dirname`. -/
def dirName (p : String) : String :=
  let cs := p.toList
  let tailLen := (cs.reverse.takeWhile (fun c => c ≠ '/')).length
  if tailLen = cs.length then ""
  else
    let head := cs.take (cs.length - tailLen)
    if head.all (fun c => c = '/') then String.mk head
    else String.mk ((head.reverse.dropWhile (fun c => c = '/')).reverse)

/-- `posixpath.splitext`: split off the extension at the last dot of the
basename, except that leading dots of the basename never start an
extension. -/
def splitExt (p : String) : String × String :=
  let cs := p.toList
  let baseFwd := (cs.reverse.takeWhile (fun c => c ≠ '/')).reverse
  let rest := baseFwd.dropWhile (fun c => c = '.')
  if rest.any (fun c => c = '.') then
    let afterRev := cs.reverse.takeWhile (fun c => c ≠ '.')
    (String.mk (cs.take (cs.length - afterRev.length - 1)),
     String.mk ('.' :: afterRev.reverse))
  else (p, "")

/-- Python's `str.isdigit` (ASCII fragment; every string handled by the
engine's own name generator is ASCII). -/
def pyIsDigit (s : String) : Bool := s ≠ "" && s.toList.all Char.isDigit

/-! ## Constants (`core.py` lines 34-64) -/

def EXCLUDE_DIR_NAMES : List String := ["__pycache__", "_MEIPASS", "_MEI", "_internal"]

def MARKDOWN_EXTS : List String := [".md", ".markdown", ".mdown", ".mkd", ".mkdown"]

def MAPPING_FILENAME : String := "attachment_rename_map.json"

def INDEX_FILENAME : String := "file_path_index.json"

def RENAMING_CATEGORIES : List (String × List String) :=
  [("image", [".png", ".jpg", ".jpeg", ".gif", ".bmp", ".webp", ".svg", ".tif", ".tiff", ".heic"]),
   ("video", [".mp4", ".mov", ".mkv", ".avi", ".wmv", ".flv", ".webm"]),
   ("audio", [".mp3", ".wav", ".aac", ".flac", ".m4a", ".ogg"]),
   ("office", [".pdf", ".doc", ".docx", ".ppt", ".pptx", ".xls", ".xlsx", ".csv", ".wps"])]

def DEFAULT_RENAME_CATEGORY : String := "image"

def CATEGORY_LABELS : List (String × String) :=
  [("image", "图片"), ("video", "视频"), ("audio", "音频"), ("office", "办公"), ("all", "全部")]

def CATEGORY_ORDER : List String := ["image", "video", "audio", "office"]

/-- Key membership in the `RENAMING_CATEGORIES` dict. -/
def isCategoryKey (t : String) : Bool := (RENAMING_CATEGORIES.lookup t).isSome

/-! ## Category normalization (`core.py` lines 66-83) -/

/-- `normalize_categories` (`core.py` 66-74).  `none` models Python `None`;
`if not selected_types` also catches the empty list. -/
def normalize_categories (selected_types : Option (List String)) : List String :=
  match selected_types with
  | none => [DEFAULT_RENAME_CATEGORY]
  | some l =>
    if l = [] then [DEFAULT_RENAME_CATEGORY]
    else
      let lowered := (l.filter (fun t => t ≠ "")).map strToLower
      let filtered := lowered.filter (fun t => isCategoryKey t || t = "all")
      if "all" ∈ filtered then ["all"]
      else
        let ordered := CATEGORY_ORDER.filter (fun t => t ∈ filtered)
        if ordered = [] then [DEFAULT_RENAME_CATEGORY] else ordered

/-- `category_labels` (`core.py` 76-80). -/
def category_labels (rename_types : Option (List String)) : List String :=
  let normalized := normalize_categories rename_types
  if "all" ∈ normalized then [(CATEGORY_LABELS.lookup "all").getD ""]
  else (CATEGORY_ORDER.filter (fun t => t ∈ normalized)).map
    (fun t => (CATEGORY_LABELS.lookup t).getD "")

/-- `category_label_from_types` (`core.py` 82-83). -/
def category_label_from_types (rename_types : Option (List String)) : String :=
  joinWith "、" (category_labels rename_types)

/-! ## Classifiers (`core.py` lines 176-182) -/

/-- `is_markdown_file` (`core.py` 176-177). -/
def is_markdown_file (filename : String) : Bool :=
  strToLower (splitExt filename).2 ∈ MARKDOWN_EXTS

/-- `is_normalized_filename` (`core.py` 180-182). -/
def is_normalized_filename (filename : String) : Bool :=
  pyIsDigit (splitExt filename).1 && (splitExt filename).1.length = 19

/-! ## Filesystem model

The filesystem under test is an association list from absolute normalized
POSIX paths to file contents.  `os.path.exists` is membership,
`os.rename` moves an entry (silently dropping any entry already at the
target, as POSIX rename would), reading/writing are lookup/update. -/

abbrev FS := List (String × String)

def fsExists (fs : FS) (p : String) : Bool := fs.any (fun e => e.1 = p)

def fsRead (fs : FS) (p : String) : Option String := fs.lookup p

def fsWrite (fs : FS) (p content : String) : FS :=
  if fsExists fs p then fs.map (fun e => if e.1 = p then (p, content) else e)
  else fs ++ [(p, content)]

def fsRename (fs : FS) (old new : String) : FS :=
  (fs.filter (fun e => e.1 ≠ new)).map (fun e => if e.1 = old then (new, e.2) else e)

/-- `os.remove` wrapped by `safe_delete` (`core.py` 581-587): missing files
and removal failures are ignored. -/
def safe_delete (fs : FS) (p : String) : FS := fs.filter (fun e => e.1 ≠ p)

/-- A directory name pruned by the walkers (`core.py` 227-232 / 310-315). -/
def dirExcluded (d : String) : Bool :=
  strStartsWith d "." || d ∈ EXCLUDE_DIR_NAMES || strEndsWith d ".app"

/-- Root-relative path of a file lying strictly under `root`. -/
def underRoot (root p : String) : Option String :=
  if strStartsWith p (root ++ "/") then some (String.mk (p.toList.drop (root.toList.length + 1))) else none

/-- Root-relative path of a file reachable by `os.walk(root)` after the
hidden/excluded-directory pruning; pruning applies to directory names only
(the final component, a file name, is never tested). -/
def visibleRel (root p : String) : Option String :=
  match underRoot root p with
  | some rel => if ((splitOnChar '/' rel).dropLast).any dirExcluded then none else some rel
  | none => none

/-! ## Walker and attachment renamer (`core.py` lines 185-290) -/

/-- `walk_attachments` (`core.py` 222-253): files under `root_dir` outside
pruned directories, skipping the running executable, `.exe` files,
Markdown documents, already-canonical names, and (unless `allow_all`)
extensions outside the selected set.  Yields `(absolutePath, relPath)`
in filesystem order. -/
def walk_attachments (fs : FS) (root_dir self_exec : String)
    (allowed_exts : Option (List String)) (allow_all : Bool) :
    List (String × String) :=
  fs.filterMap fun e =>
    match visibleRel root_dir e.1 with
    | none => none
    | some rel =>
      let filename := baseName rel
      if e.1 = self_exec then none
      else if strEndsWith (strToLower filename) ".exe" then none
      else if is_markdown_file filename then none
      else if is_normalized_filename filename then none
      else
        let ext := strToLower (splitExt filename).2
        if ¬ allow_all ∧ allowed_exts ≠ none ∧ ext ∉ allowed_exts.getD [] then none
        else some (e.1, rel)

/-- One `datetime.now()` sample with millisecond precision
(`now.strftime("%Y%m%d%H%M%S")` plus `now.microsecond // 1000`). -/
structure Clock where
  year : Nat
  month : Nat
  day : Nat
  hour : Nat
  minute : Nat
  second : Nat
  ms : Nat
deriving DecidableEq

/-- Field ranges guaranteed by `datetime` (wall-clock years are four
digits; subordinate fields are two digits, milliseconds three). -/
def Clock.Valid (c : Clock) : Prop :=
  1000 ≤ c.year ∧ c.year ≤ 9999 ∧ c.month ≤ 99 ∧ c.day ≤ 99 ∧
  c.hour ≤ 99 ∧ c.minute ≤ 99 ∧ c.second ≤ 99 ∧ c.ms ≤ 999

instance (c : Clock) : Decidable c.Valid := by unfold Clock.Valid; infer_instance

/-- The 17-digit `base` string of `generate_unique_filename`
(`core.py` 187-188). -/
def clockBase (c : Clock) : String :=
  padNum 4 c.year ++ padNum 2 c.month ++ padNum 2 c.day ++ padNum 2 c.hour ++
  padNum 2 c.minute ++ padNum 2 c.second ++ padNum 3 c.ms

/-- An entry of the clock/random stream: the `datetime.now()` sample and the
`random.randint(0, 99)` draw of one loop iteration. -/
abbrev ClockRand := Clock × Nat

def ClockRand.Valid (e : ClockRand) : Prop := e.1.Valid ∧ e.2 ≤ 99

instance (e : ClockRand) : Decidable e.Valid := by unfold ClockRand.Valid; infer_instance

/-- `generate_unique_filename` (`core.py` 185-198).  The source loops until
a name passes both the `used` check and the disk-existence check; the loop
is driven here by the explicit stream, and exhausting the (finite) stream —
which corresponds to the source never finding a free name — yields `none`.
On success returns the name, the grown `used` set and the unconsumed
stream. -/
def generate_unique_filename (fs : FS) (target_dir ext : String)
    (used : List String) :
    List ClockRand → Option (String × List String × List ClockRand)
  | [] => none
  | (c, rnd) :: stream =>
    let new_name := clockBase c ++ padNum 2 rnd ++ ext
    if new_name ∈ used then generate_unique_filename fs target_dir ext used stream
    else
      let abs_new := joinPath target_dir new_name
      if ¬ fsExists fs abs_new then some (new_name, new_name :: used, stream)
      else generate_unique_filename fs target_dir ext used stream

/-- One `details.append({...})` record (`core.py` 282-286). -/
structure RenameDetail where
  old : String
  new : String
  path : String
deriving DecidableEq

/-- Result of `rename_attachments`.  Two ghost fields instrument the loop
for the analysis without altering it: `generated` records the names issued
by `generate_unique_filename` in order, and `overwrote` records whether any
`os.rename` target already existed on disk at the moment of the rename
(the source renames unconditionally; the claim under test is that this
never overwrites anything). -/
structure RenameResult where
  mapping : List (String × String)
  detected : Nat
  renamed : Nat
  details : List RenameDetail
  fs : FS
  stream : List ClockRand
  generated : List String
  overwrote : Bool
deriving DecidableEq

/-- Loop body of `rename_attachments` (`core.py` 265-289).  Per-file
`os.rename` failures (caught and skipped in the source) cannot occur in the
permission-free filesystem model, so every rename succeeds. -/
def renameGo (root_dir : String) :
    List (String × String) → FS → List String → List (String × String) →
    Nat → List RenameDetail → List ClockRand → List String → Bool →
    Option RenameResult
  | [], fs, _, mapping, renamed, details, stream, gen, ow =>
    some ⟨mapping, 0, renamed, details, fs, stream, gen, ow⟩
  | (abs_old, rel_old) :: rest, fs, used, mapping, renamed, details, stream, gen, ow =>
    let dirpath := dirName abs_old
    let filename := baseName abs_old
    let ext := (splitExt filename).2
    match generate_unique_filename fs dirpath ext used stream with
    | none => none
    | some (new_name, used', stream') =>
      let abs_new := joinPath dirpath new_name
      let rel_new_posix := relPath abs_new root_dir
      let ow' := ow || fsExists fs abs_new
      let fs' := fsRename fs abs_old abs_new
      renameGo root_dir rest fs' used' (mapping ++ [(rel_old, rel_new_posix)])
        (renamed + 1)
        (details ++ [⟨baseName rel_old, baseName rel_new_posix, dirName rel_old⟩])
        stream' (gen ++ [new_name]) ow'

/-- `rename_attachments` (`core.py` 256-290). -/
def rename_attachments (fs : FS) (root_dir self_exec : String)
    (allowed_exts : Option (List String)) (allow_all : Bool)
    (stream : List ClockRand) : Option RenameResult :=
  let attachments := walk_attachments fs root_dir self_exec allowed_exts allow_all
  match renameGo root_dir attachments fs [] [] 0 [] stream [] false with
  | none => none
  | some r => some { r with detected := attachments.length }

/-! ## File index and duplicate detector (`core.py` lines 305-358) -/

/-- The `{"markdown": [...], "attachments": [...]}` index. -/
structure Index where
  markdown : List String
  attachments : List String
deriving DecidableEq

/-- `build_file_index` (`core.py` 305-327). -/
def build_file_index (fs : FS) (root_dir : String) : Index :=
  let rels := fs.filterMap (fun e => visibleRel root_dir e.1)
  { markdown := rels.filter (fun r => is_markdown_file (baseName r)),
    attachments := rels.filter (fun r => ¬ is_markdown_file (baseName r)) }

/-- `buckets.setdefault(name, []).append(rel)` on an insertion-ordered
association list (`core.py` 341-343). -/
def bucketsAdd (name rel : String) : List (String × List String) → List (String × List String)
  | [] => [(name, [rel])]
  | (k, v) :: rest =>
    if k = name then (k, v ++ [rel]) :: rest else (k, v) :: bucketsAdd name rel rest

/-- The filled `buckets` dict of `detect_duplicate_filenames`. -/
def buckets (rels : List String) : List (String × List String) :=
  rels.foldl (fun b rel => bucketsAdd (baseName rel) rel b) []

/-- Python string comparison (code-point lexicographic) as a Bool. -/
def lexLt : List Char → List Char → Bool
  | _, [] => false
  | [], _ :: _ => true
  | a :: as, b :: bs => if a = b then lexLt as bs else decide (a.val < b.val)

def strLtB (a b : String) : Bool := lexLt a.toList b.toList

def insSorted (x : String) : List String → List String
  | [] => [x]
  | y :: ys => if strLtB y x then y :: insSorted x ys else x :: y :: ys

/-- Python `sorted` on strings. -/
def sortStr (l : List String) : List String := l.foldr insSorted []

/-- `detect_duplicate_filenames` (`core.py` 339-357): returns the
duplicates dict, the Markdown report table, and the flat duplicate list. -/
def detect_duplicate_filenames (index : Index) :
    List (String × List String) × String × List (String × String) :=
  let bs := buckets (index.markdown ++ index.attachments)
  let duplicates := bs.filter (fun e => e.2.length > 1)
  if duplicates = [] then ([], "未发现重复命名文件。", [])
  else
    let names := sortStr (duplicates.map (fun e => e.1))
    let lines := names.map (fun name =>
      "| `" ++ name ++ "` | " ++
        joinWith "<br>" (sortStr ((duplicates.lookup name).getD [])) ++ " |")
    let dup_list := names.flatMap (fun name =>
      (sortStr ((duplicates.lookup name).getD [])).map (fun p => (name, p)))
    (duplicates,
     joinWith "\n" (["| 文件名 | 路径 |", "| --- | --- |"] ++ lines),
     dup_list)

/-- Serialized payload of the temporary mapping JSON file.  The file is
written and later deleted without ever being read back during a run, so the
exact JSON text is abstracted to a deterministic rendering of the pairs. -/
def renderMapping (mapping : List (String × String)) : String :=
  joinWith "\n" (mapping.map (fun e => e.1 ++ " -> " ++ e.2))

/-- `save_mapping` (`core.py` 293-301): writes the mapping file into
`data_dir` (or the root) and returns its path. -/
def save_mapping (fs : FS) (root_dir : String) (mapping : List (String × String))
    (data_dir : Option String) : FS × String :=
  let path := joinPath (data_dir.getD root_dir) MAPPING_FILENAME
  (fsWrite fs path (renderMapping mapping), path)

/-- Serialized payload of the temporary index JSON file (same abstraction
as `renderMapping`). -/
def renderIndex (index : Index) : String :=
  joinWith "\n" (index.markdown ++ index.attachments)

/-- `save_index` (`core.py` 330-336). -/
def save_index (fs : FS) (root_dir : String) (index : Index)
    (data_dir : Option String) : FS × String :=
  let path := joinPath (data_dir.getD root_dir) INDEX_FILENAME
  (fsWrite fs path (renderIndex index), path)

/-! ## Path resolution engine (`core.py` lines 402-487) -/

/-- `is_external_or_absolute` (`core.py` 408-416). -/
def is_external_or_absolute (path : String) : Bool :=
  let p := strToLower path
  strStartsWith p "http://" || strStartsWith p "https://" || strStartsWith p "ftp://" ||
  strStartsWith p "mailto:" || strStartsWith p "tel:" || strStartsWith p "data:" ||
  strStartsWith p "//" || strStartsWith p "#" ||
  strStartsWith path "/" || strStartsWith path "\\" ||
  (match path.toList with
   | c :: ':' :: d :: _ => c.isAlpha && (d = '\\' || d = '/')
   | _ => false)

/-- `find_attachment_by_filename` (`core.py` 419-421). -/
def find_attachment_by_filename (filename : String) (attachments : List String) :
    Option String :=
  let candidates := attachments.filter (fun p => baseName p = filename)
  if candidates.length = 1 then candidates.head? else none

/-- `find_markdown_by_filename` (`core.py` 424-440). -/
def find_markdown_by_filename (filename : String) (markdown_paths : List String) :
    Option String :=
  let all_mds := markdown_paths.filter (fun p => strEndsWith (strToLower p) ".md")
  let exact := all_mds.filter (fun p => baseName p = filename)
  if exact.length = 1 then exact.head?
  else if exact.length > 1 then none
  else
    let fuzzy := all_mds.filter (fun p => strContains (strToLower (baseName p)) (strToLower filename))
    if fuzzy.length = 1 then fuzzy.head? else none

/-- The mapping branch of `transform_path` (`core.py` 457-468): a hit of
`rel_from_root` in the mapping whose target exists on disk produces the
re-expressed reference.  `rel_from_root` is never empty in the model
(`relpath` cannot return `""`), but Python's truthiness test on it is kept. -/
def mappedStep (fs : FS) (rel_from_root md_dir root_dir : String)
    (mapping : List (String × String)) : Option (String × Bool) :=
  if rel_from_root ≠ "" then
    match mapping.lookup rel_from_root with
    | some new_rel =>
      let new_abs := joinPath root_dir new_rel
      if fsExists fs new_abs then some (relPath new_abs md_dir, true) else none
    | none => none
  else none

/-- The found-by-filename branch of `transform_path` (`core.py` 478-481):
`if found_rel:` (false for `None` and for the empty string) followed by
the disk-existence check. -/
def indexStep (fs : FS) (found_rel : Option String) (md_dir root_dir : String) :
    Option (String × Bool) :=
  match found_rel with
  | some f =>
    if f = "" then none
    else
      let new_abs := joinPath root_dir f
      if fsExists fs new_abs then some (relPath new_abs md_dir, true) else none
  | none => none

/-- The basename search of `transform_path` (`core.py` 470-476). -/
def findStep (url : String) (markdown_paths attachment_paths : List String) :
    Option String :=
  let filename := baseName url
  if strEndsWith (strToLower filename) ".md" then
    find_markdown_by_filename filename markdown_paths
  else find_attachment_by_filename filename attachment_paths

def transformPathCore (fs : FS) (url md_dir root_dir : String)
    (mapping : List (String × String))
    (markdown_paths attachment_paths : List String) : String × Bool :=
  let abs_candidate := normPath (joinPath md_dir url)
  match mappedStep fs (relPath abs_candidate root_dir) md_dir root_dir mapping with
  | some r => r
  | none =>
    match indexStep fs (findStep url markdown_paths attachment_paths) md_dir root_dir with
    | some r => r
    | none => if fsExists fs abs_candidate then (url, true) else (url, false)

/-- `transform_path` (`core.py` 443-486): the early return for
empty/external references, then the mapping / index / disk fallbacks of
`transformPathCore`. -/
def transform_path (fs : FS) (url0 md_dir root_dir : String)
    (mapping : List (String × String))
    (markdown_paths attachment_paths : List String) : String × Bool :=
  let url := strTrim url0
  if url = "" || is_external_or_absolute url then (url, true)
  else transformPathCore fs url md_dir root_dir mapping markdown_paths attachment_paths

/-! ## The two reference-extraction grammars (`core.py` lines 402-406)

`MD_LINK_PATTERN = (!?\[[^\]]*\]\()([^\)]+)(\))` and
`HTML_SRC_PATTERN = (<(?:img|image)\b[^>]*?\s(?:src|href)\s*=\s*["'])([^"']+)(["'])`
(the latter case-insensitive), applied with `re.sub`: scan left to right,
attempt a match at each position, splice the replacement, resume after the
match.  Both matchers below return the decomposition of a successful match
at the head of the input. -/

/-- Attempt `MD_LINK_PATTERN` at the head of `cs`.  On success returns
`(pre, body, rest)` with `cs = pre ++ body ++ ')' :: rest`, where `pre` is
group 1 (`!?\[label\](`), `body` is group 2 — the maximal nonempty run of
non-`)` characters — and the following `)` is group 3. -/
def parseBracketLink (l : List Char) : Option (List Char × List Char × List Char) :=
  match l with
  | '[' :: r =>
    match r.dropWhile (fun c => c ≠ ']') with
    | ']' :: '(' :: s =>
      match s.takeWhile (fun c => c ≠ ')') with
      | [] => none
      | b :: bs =>
        match s.dropWhile (fun c => c ≠ ')') with
        | ')' :: rest =>
          some ('[' :: (r.takeWhile (fun c => c ≠ ']') ++ ']' :: '(' :: []), b :: bs, rest)
        | _ => none
    | _ => none
  | _ => none

def tryMdLink (cs : List Char) : Option (List Char × List Char × List Char) :=
  match cs with
  | '!' :: r =>
    match parseBracketLink r with
    | some (pre, body, rest) => some ('!' :: pre, body, rest)
    | none => none
  | _ => parseBracketLink cs

/-- The inner regex of `md_repl` (`core.py` 505):
`^(\s*<?)([^>\s]+)(>?)(.*)$` with `re.DOTALL`, i.e. an optional
angle-bracket wrapper around a whitespace-free target plus preserved
trailing text.  Returns `(pre, url, angle, tail)` with
`body = pre ++ url ++ angle ++ tail`. -/
def urlChar (c : Char) : Bool := ¬ c.isWhitespace ∧ c ≠ '>'

/-- The `(>?)(.*)` tail of the inner regex: an optional closing angle
bracket, then everything else. -/
def angleSplit (l : List Char) : List Char × List Char :=
  match l.dropWhile urlChar with
  | '>' :: t => (['>'], t)
  | t => ([], t)

def innerMatch (body : List Char) : Option (List Char × List Char × List Char × List Char) :=
  let ws := body.takeWhile Char.isWhitespace
  match body.dropWhile Char.isWhitespace with
  | [] => none
  | '<' :: r2 =>
    match r2.takeWhile urlChar with
    | [] =>
      some (ws, ['<'], (angleSplit r2).1, (angleSplit r2).2)
    | u :: us =>
      some (ws ++ ['<'], u :: us, (angleSplit (r2.dropWhile urlChar)).1,
        (angleSplit (r2.dropWhile urlChar)).2)
  | c :: r =>
    if c = '>' then none
    else
      some (ws, (c :: r).takeWhile urlChar,
        (angleSplit ((c :: r).dropWhile urlChar)).1,
        (angleSplit ((c :: r).dropWhile urlChar)).2)

/-- A `re.sub` body transformer: maps a matched group-2 to its replacement
together with the replacement-count increment and the broken links it
records. -/
abbrev BodyTf := List Char → List Char × Nat × List String

/-- `MD_LINK_PATTERN.sub`: scan, rewrite each match's group 2 through `f`,
collect counts, broken links and (for the analysis) the matched bodies.
`fuel` only needs to be `≥ cs.length`; when it runs out the rest is copied
unchanged. -/
def mdSubGo (f : BodyTf) : Nat → List Char → List Char × Nat × List String × List (List Char)
  | 0, cs => (cs, 0, [], [])
  | _, [] => ([], 0, [], [])
  | fuel + 1, c :: rest =>
    match tryMdLink (c :: rest) with
    | some (pre, body, after) =>
      let r := f body
      let rec' := mdSubGo f fuel after
      (pre ++ r.1 ++ ')' :: rec'.1, r.2.1 + rec'.2.1, r.2.2 ++ rec'.2.2.1, body :: rec'.2.2.2)
    | none =>
      let rec' := mdSubGo f fuel rest
      (c :: rec'.1, rec'.2.1, rec'.2.2.1, rec'.2.2.2)

def mdSub (f : BodyTf) (s : String) : String × Nat × List String :=
  let r := mdSubGo f s.toList.length s.toList
  (String.mk r.1, r.2.1, r.2.2.1)

/-- Group-2 occurrences of `MD_LINK_PATTERN` in `s` (independent of any
transformer, see `mdSubGo_bodies_congr`). -/
def mdBodies (s : String) : List (List Char) :=
  (mdSubGo (fun b => (b, 0, [])) s.toList.length s.toList).2.2.2

/-- Case-insensitive literal match at the head of a character list. -/
def ciHasPre (pat : List Char) (cs : List Char) : Bool :=
  pat.isPrefixOf (cs.map Char.toLower)

/-- Regex `\w` (ASCII fragment). -/
def wordChar (c : Char) : Bool := c.isAlphanum || c = '_'

def headIsWord : List Char → Bool
  | c :: _ => wordChar c
  | [] => false

/-- The `(?:src|href)\s*=\s*["']` part of `HTML_SRC_PATTERN`, tried after
the mandatory whitespace.  Returns `(preInc, body, closeq, rest)` where
`preInc` is the consumed text (attribute name, `=`, opening quote),
`body` the nonempty quote-free value, `closeq` the closing quote, and
`l = preInc ++ body ++ closeq :: rest`. -/
def quoteFree (c : Char) : Bool := c ≠ '"' ∧ c ≠ '\''

def attrTry (l : List Char) (nm : List Char) :
    Option (List Char × List Char × Char × List Char) :=
  if ciHasPre nm l then
    match (l.drop nm.length).dropWhile Char.isWhitespace with
    | '=' :: r =>
      match r.dropWhile Char.isWhitespace with
      | q :: r2 =>
        if q = '"' ∨ q = '\'' then
          match r2.takeWhile quoteFree with
          | [] => none
          | b :: bs =>
            match r2.dropWhile quoteFree with
            | q2 :: rest =>
              if q2 = '"' ∨ q2 = '\'' then
                some (l.take nm.length ++ (l.drop nm.length).takeWhile Char.isWhitespace
                    ++ '=' :: r.takeWhile Char.isWhitespace ++ [q],
                  b :: bs, q2, rest)
              else none
            | [] => none
        else none
      | _ => none
    | _ => none
  else none

def attrCont (l : List Char) : Option (List Char × List Char × Char × List Char) :=
  match attrTry l "src".toList with
  | some r => some r
  | none => attrTry l "href".toList

/-- The lazy `[^>]*?\s` + attribute search of `HTML_SRC_PATTERN`: find the
shortest run of non-`>` characters followed by a whitespace at which
`attrCont` succeeds.  `acc` holds the consumed run reversed. -/
def htmlLazy : Nat → List Char → List Char → Option (List Char × List Char × Char × List Char)
  | 0, _, _ => none
  | fuel + 1, acc, cs =>
    match cs with
    | [] => none
    | c :: rest =>
      if c.isWhitespace then
        match attrCont rest with
        | some (pre2, body, q2, r) => some (acc.reverse ++ c :: pre2, body, q2, r)
        | none => if c ≠ '>' then htmlLazy fuel (c :: acc) rest else none
      else if c ≠ '>' then htmlLazy fuel (c :: acc) rest
      else none

/-- Attempt `HTML_SRC_PATTERN` at the head of `cs`: `<`, tag `img`/`image`
(case-insensitive, alternation in source order) closed by a `\b` boundary,
then the lazy attribute search.  On success
`cs = pre ++ body ++ closeq :: rest`. -/
def tryHtml (cs : List Char) : Option (List Char × List Char × Char × List Char) :=
  match cs with
  | '<' :: r =>
    let tagLen : Option Nat :=
      if ciHasPre "img".toList r ∧ ¬ headIsWord (r.drop 3) then some 3
      else if ciHasPre "image".toList r ∧ ¬ headIsWord (r.drop 5) then some 5
      else none
    match tagLen with
    | some n =>
      match htmlLazy (r.drop n).length [] (r.drop n) with
      | some (pre2, body, q2, rest) => some ('<' :: (r.take n ++ pre2), body, q2, rest)
      | none => none
    | none => none
  | _ => none

/-- `HTML_SRC_PATTERN.sub` driver, analogous to `mdSubGo`; the transformer
receives the matched value (group 2). -/
def htmlSubGo (f : BodyTf) : Nat → List Char → List Char × Nat × List String × List (List Char)
  | 0, cs => (cs, 0, [], [])
  | _, [] => ([], 0, [], [])
  | fuel + 1, c :: rest =>
    match tryHtml (c :: rest) with
    | some (pre, body, q2, after) =>
      let r := f body
      let rec' := htmlSubGo f fuel after
      (pre ++ r.1 ++ q2 :: rec'.1, r.2.1 + rec'.2.1, r.2.2 ++ rec'.2.2.1, body :: rec'.2.2.2)
    | none =>
      let rec' := htmlSubGo f fuel rest
      (c :: rec'.1, rec'.2.1, rec'.2.2.1, rec'.2.2.2)

def htmlSub (f : BodyTf) (s : String) : String × Nat × List String :=
  let r := htmlSubGo f s.toList.length s.toList
  (String.mk r.1, r.2.1, r.2.2.1)

/-- Group-2 occurrences of `HTML_SRC_PATTERN` in `s`. -/
def htmlBodies (s : String) : List (List Char) :=
  (htmlSubGo (fun b => (b, 0, [])) s.toList.length s.toList).2.2.2

/-! ## Markdown rewriter (`core.py` lines 489-576) -/

/-- `md_repl` (`core.py` 501-517) as a body transformer. -/
def mdRepl (fs : FS) (md_dir root_dir : String) (mapping : List (String × String))
    (markdown_paths attachment_paths : List String) : BodyTf := fun body =>
  match innerMatch body with
  | none => (body, 0, [])
  | some (pre, url, angle, tl) =>
    let r := transform_path fs (String.mk url) md_dir root_dir mapping
      markdown_paths attachment_paths
    (pre ++ r.1.toList ++ angle ++ tl,
     if r.1 ≠ String.mk url then 1 else 0,
     if r.2 then [] else [String.mk url])

/-- `html_repl` (`core.py` 519-530) as a body transformer. -/
def htmlRepl (fs : FS) (md_dir root_dir : String) (mapping : List (String × String))
    (markdown_paths attachment_paths : List String) : BodyTf := fun body =>
  let r := transform_path fs (String.mk body) md_dir root_dir mapping
    markdown_paths attachment_paths
  (r.1.toList,
   if r.1 ≠ String.mk body then 1 else 0,
   if r.2 then [] else [String.mk body])

/-- `replace_in_markdown` (`core.py` 489-535): the Markdown-link pass
followed by the HTML pass on its output; counts and broken-link lists
accumulate across the two passes. -/
def replace_in_markdown (fs : FS) (content : String) (md_abs_path root_dir : String)
    (mapping : List (String × String))
    (markdown_paths attachment_paths : List String) : String × Nat × List String :=
  let md_dir := dirName md_abs_path
  let r1 := mdSub (mdRepl fs md_dir root_dir mapping markdown_paths attachment_paths) content
  let r2 := htmlSub (htmlRepl fs md_dir root_dir mapping markdown_paths attachment_paths) r1.1
  (r2.1, r1.2.1 + r2.2.1, r1.2.2 ++ r2.2.2)

/-- Loop of `process_markdown_files` (`core.py` 547-573): documents whose
read fails (here: that are absent from the filesystem) are skipped; a
document with zero replacements is scanned but not written back. -/
def processGo (root_dir : String) (index : Index) (mapping : List (String × String)) :
    List String → FS → Nat → Nat → List String → List (String × String) →
    FS × Nat × Nat × List String × List (String × String)
  | [], fs, files, repl, changed, invalid => (fs, files, repl, changed, invalid)
  | rel_md :: rest, fs, files, repl, changed, invalid =>
    let abs_md := joinPath root_dir rel_md
    match fsRead fs abs_md with
    | none => processGo root_dir index mapping rest fs files repl changed invalid
    | some content =>
      let r := replace_in_markdown fs content abs_md root_dir mapping
        index.markdown index.attachments
      let invalid' := invalid ++ r.2.2.map (fun l => (rel_md, l))
      if r.2.1 = 0 then
        processGo root_dir index mapping rest fs files repl changed invalid'
      else
        processGo root_dir index mapping rest (fsWrite fs abs_md r.1)
          (files + 1) (repl + r.2.1) (changed ++ [rel_md]) invalid'

/-- `process_markdown_files` (`core.py` 538-576): returns the updated
filesystem, `total_files`, `total_replacements`, `changed_files` and the
`invalid_references` pairs. -/
def process_markdown_files (fs : FS) (root_dir : String) (index : Index)
    (mapping : List (String × String)) :
    FS × Nat × Nat × List String × List (String × String) :=
  processGo root_dir index mapping index.markdown fs 0 0 [] []

/-! ## Pipeline (`core.py` lines 202-219 and 592-652, and the legacy
`md_link_fixer.py` lines 572-630) -/

inductive PipelineErr where
  /-- The `ValueError` of `resolve_allowed_extensions` (`core.py` 211). -/
  | invalidCategory (msg : String)
  /-- The modelled clock stream ran dry inside `generate_unique_filename`
  (the source would spin forever in that situation). -/
  | outOfStream
deriving DecidableEq

/-- `resolve_allowed_extensions` (`core.py` 202-219). -/
def resolve_allowed_extensions (categories : Option (List String)) :
    Except PipelineErr (List String × Bool × List String × String) :=
  let normalized := normalize_categories categories
  let allow_all := "all" ∈ normalized
  let unknown := (categories.getD []).filter (fun c =>
    c ≠ "" ∧ ¬ isCategoryKey (strToLower c) ∧ strToLower c ≠ "all" ∧ strToLower c ≠ "other")
  if unknown ≠ [] then
    .error (.invalidCategory ("Unknown rename categories: " ++ joinWith ", " unknown))
  else
    let allowed := normalized.foldl
      (fun acc cat => acc ++ ((RENAMING_CATEGORIES.lookup cat).getD [])) []
    .ok (allowed, allow_all, normalized, category_label_from_types (some normalized))

/-- The summary dict returned by `run_pipeline` (`core.py` 631-646). -/
structure Summary where
  root : String
  rename_candidates : Nat
  renamed_files : Nat
  markdown_fixed : Nat
  replacements : Nat
  rename_categories : String
  rename_category_keys : List String
  duplicates : List (String × List String)
  duplicate_table : String
  rename_details : List RenameDetail
  fixed_files : List String
  duplicate_list : List (String × String)
  invalid_references : List (String × String)
  invalid_reference_count : Nat
deriving DecidableEq

/-- `run_pipeline` of `core.py` (lines 592-652).  Returns the final
filesystem together with the summary or the propagated error; on error the
filesystem is exactly the caller's.  `normalize_display_path(os.path.abspath(root))`
is modelled for absolute roots, where `abspath = normpath`.  Logging, the
per-run `random.seed()` (represented by the caller-chosen stream), and
report writing mutate nothing under the root. -/
def run_pipeline (fs : FS) (root_dir0 : String) (rename_categories : Option (List String))
    (self_exec : String) (stream : List ClockRand) (data_dir : Option String) :
    FS × Except PipelineErr Summary :=
  let root_dir := normPath root_dir0
  match resolve_allowed_extensions rename_categories with
  | .error e => (fs, .error e)
  | .ok (allowed_exts, allow_all, normalized_types, category_label) =>
    let index_before := build_file_index fs root_dir
    let dup := detect_duplicate_filenames index_before
    let duplicates := dup.1
    let duplicate_table := dup.2.1
    let duplicate_list := dup.2.2
    match rename_attachments fs root_dir self_exec (some allowed_exts) allow_all stream with
    | none => (fs, .error .outOfStream)
    | some r =>
      let sm := save_mapping r.fs root_dir r.mapping data_dir
      let index_after := build_file_index sm.1 root_dir
      let si := save_index sm.1 root_dir index_after data_dir
      let pr := process_markdown_files si.1 root_dir index_after r.mapping
      let fs5 := safe_delete (safe_delete pr.1 sm.2) si.2
      (fs5, .ok
        { root := root_dir
          rename_candidates := r.detected
          renamed_files := r.renamed
          markdown_fixed := pr.2.1
          replacements := pr.2.2.1
          rename_categories := category_label
          rename_category_keys := normalized_types
          duplicates := duplicates
          duplicate_table := duplicate_table
          rename_details := r.details
          fixed_files := pr.2.2.2.1
          duplicate_list := duplicate_list
          invalid_references := pr.2.2.2.2
          invalid_reference_count := pr.2.2.2.2.length })

/-- `run_pipeline` of the legacy `md_link_fixer.py` (lines 572-630).  Its
component functions are identical to `core.py`; the only difference is the
phase order: there is no pre-rename index, and the duplicate report is
computed from the single index built after renaming. -/
def run_pipeline_legacy (fs : FS) (root_dir0 : String)
    (rename_categories : Option (List String)) (self_exec : String)
    (stream : List ClockRand) (data_dir : Option String) :
    FS × Except PipelineErr Summary :=
  let root_dir := normPath root_dir0
  match resolve_allowed_extensions rename_categories with
  | .error e => (fs, .error e)
  | .ok (allowed_exts, allow_all, normalized_types, category_label) =>
    match rename_attachments fs root_dir self_exec (some allowed_exts) allow_all stream with
    | none => (fs, .error .outOfStream)
    | some r =>
      let sm := save_mapping r.fs root_dir r.mapping data_dir
      let index := build_file_index sm.1 root_dir
      let si := save_index sm.1 root_dir index data_dir
      let pr := process_markdown_files si.1 root_dir index r.mapping
      let dup := detect_duplicate_filenames index
      let fs5 := safe_delete (safe_delete pr.1 sm.2) si.2
      (fs5, .ok
        { root := root_dir
          rename_candidates := r.detected
          renamed_files := r.renamed
          markdown_fixed := pr.2.1
          replacements := pr.2.2.1
          rename_categories := category_label
          rename_category_keys := normalized_types
          duplicates := dup.1
          duplicate_table := dup.2.1
          rename_details := r.details
          fixed_files := pr.2.2.2.1
          duplicate_list := dup.2.2
          invalid_references := pr.2.2.2.2
          invalid_reference_count := pr.2.2.2.2.length })

/-! ## General helper lemmas -/

theorem length_filter_le_of_imp {α} (p q : α → Bool) (l : List α)
    (h : ∀ a, p a = true → q a = true) :
    (l.filter p).length ≤ (l.filter q).length := by
  induction l with
  | nil => simp
  | cons a t ih =>
    by_cases hp : p a = true
    · simp only [List.filter_cons, hp, h a hp, if_true, List.length_cons]
      omega
    · simp only [List.filter_cons, hp, if_false, Bool.false_eq_true]
      split
      · simp only [List.length_cons]; omega
      · exact ih

theorem strContains_self (s : String) : strContains s s = true := by
  unfold strContains
  rw [List.any_eq_true]
  exact ⟨s.toList, (List.mem_tails _ _).2 (List.suffix_refl _),
    List.isPrefixOf_iff_prefix.2 (List.prefix_refl _)⟩

/-! ## Claim C2 — document matching: exact then fuzzy -/

/-- Modelled from the spec (C2's description of the search): exact
case-sensitive basename matches over the whole document index, falling back
on zero or more-than-one hits to the case-insensitive fuzzy containment
search over the whole document index, accepting only a unique candidate. -/
def find_markdown_spec_claimed (filename : String) (markdown_paths : List String) :
    Option String :=
  let exact := markdown_paths.filter (fun p => baseName p = filename)
  if exact.length = 1 then exact.head?
  else
    let fuzzy := markdown_paths.filter
      (fun p => strContains (strToLower (baseName p)) (strToLower filename))
    if fuzzy.length = 1 then fuzzy.head? else none

/-- The claim's search description amended as the code forces: both
searches range only over the index entries whose lowercased path ends in
`".md"`. -/
def find_markdown_spec_restricted (filename : String) (markdown_paths : List String) :
    Option String :=
  let all_mds := markdown_paths.filter (fun p => strEndsWith (strToLower p) ".md")
  let exact := all_mds.filter (fun p => baseName p = filename)
  if exact.length = 1 then exact.head?
  else
    let fuzzy := all_mds.filter
      (fun p => strContains (strToLower (baseName p)) (strToLower filename))
    if fuzzy.length = 1 then fuzzy.head? else none

/-- C2 (counterexample): the claim says the fuzzy search ranges over the
document index; for the index entry `x/b.md.markdown` (a legitimate
document-index member, since `.markdown` is a Markdown extension) and
target basename `b.md`, the claimed search resolves it while the code,
which restricts both searches to `.md`-suffixed entries, does not. -/
theorem find_markdown_fuzzy_scope_counterexample :
    find_markdown_by_filename "b.md" ["x/b.md.markdown"] = none ∧
    find_markdown_spec_claimed "b.md" ["x/b.md.markdown"] = some "x/b.md.markdown" := by
  constructor <;> rfl

/-- C2 (amended): the resolver's document search accepts a unique
case-sensitive exact basename match and on zero or more-than-one exact
matches falls back to the case-insensitive fuzzy containment search,
accepting the fuzzy candidate only when exactly one remains — with both
searches restricted to index entries whose lowercased path ends in `.md`. -/
theorem find_markdown_matching_behavior (filename : String) (markdown_paths : List String) :
    find_markdown_by_filename filename markdown_paths =
    find_markdown_spec_restricted filename markdown_paths := by
  unfold find_markdown_by_filename find_markdown_spec_restricted
  simp only []
  have hmono :
      ((markdown_paths.filter (fun p => strEndsWith (strToLower p) ".md")).filter
        (fun p => decide (baseName p = filename))).length ≤
      ((markdown_paths.filter (fun p => strEndsWith (strToLower p) ".md")).filter
        (fun p => strContains (strToLower (baseName p)) (strToLower filename))).length := by
    refine length_filter_le_of_imp _ _ _ (fun a ha => ?_)
    have hb : baseName a = filename := of_decide_eq_true ha
    rw [hb]
    exact strContains_self (strToLower filename)
  by_cases h1 :
      ((markdown_paths.filter (fun p => strEndsWith (strToLower p) ".md")).filter
        (fun p => decide (baseName p = filename))).length = 1
  · rw [if_pos h1, if_pos h1]
  · rw [if_neg h1, if_neg h1]
    by_cases h2 :
        ((markdown_paths.filter (fun p => strEndsWith (strToLower p) ".md")).filter
          (fun p => decide (baseName p = filename))).length > 1
    · rw [if_pos h2]
      have hf :
          ¬ ((markdown_paths.filter (fun p => strEndsWith (strToLower p) ".md")).filter
            (fun p => strContains (strToLower (baseName p)) (strToLower filename))).length = 1 := by
        omega
      rw [if_neg hf]
    · rw [if_neg h2]

/-! ## Claim C8 — external references -/

/-- C8 (counterexample): for the reference `"#anchor "` — which starts
with `#` — the resolver does not return the input unchanged: it returns
the trimmed string. -/
theorem transform_path_external_trim_counterexample :
    transform_path [] "#anchor " "/r" "/r" [] [] [] = ("#anchor", true) ∧
    ("#anchor" : String) ≠ "#anchor " := by
  constructor
  · rfl
  · decide

/-- C8 (amended): a reference that is empty after trimming, or whose
trimmed form starts with one of the URL schemes (case-insensitively), with
`//`, with `#`, is POSIX-absolute or drive-letter-absolute, is returned
trimmed (hence unchanged whenever it carries no surrounding whitespace)
with resolved = true. -/
theorem transform_path_external_untouched (fs : FS) (url md_dir root_dir : String)
    (mapping : List (String × String)) (mks atts : List String)
    (h : strTrim url = "" ∨
      strStartsWith (strToLower (strTrim url)) "http://" = true ∨
      strStartsWith (strToLower (strTrim url)) "https://" = true ∨
      strStartsWith (strToLower (strTrim url)) "ftp://" = true ∨
      strStartsWith (strToLower (strTrim url)) "mailto:" = true ∨
      strStartsWith (strToLower (strTrim url)) "tel:" = true ∨
      strStartsWith (strToLower (strTrim url)) "data:" = true ∨
      strStartsWith (strToLower (strTrim url)) "//" = true ∨
      strStartsWith (strToLower (strTrim url)) "#" = true ∨
      strStartsWith (strTrim url) "/" = true ∨
      strStartsWith (strTrim url) "\\" = true ∨
      (∃ c d r2, (strTrim url).toList = c :: ':' :: d :: r2 ∧
        c.isAlpha = true ∧ (d = '\\' ∨ d = '/'))) :
    transform_path fs url md_dir root_dir mapping mks atts = (strTrim url, true) := by
  have hx : (decide (strTrim url = "") || is_external_or_absolute (strTrim url)) = true := by
    rcases h with h | h | h | h | h | h | h | h | h | h | h | ⟨c, d, r2, hl, ha, hd⟩
    · simp [h]
    · simp [is_external_or_absolute, h]
    · simp [is_external_or_absolute, h]
    · simp [is_external_or_absolute, h]
    · simp [is_external_or_absolute, h]
    · simp [is_external_or_absolute, h]
    · simp [is_external_or_absolute, h]
    · simp [is_external_or_absolute, h]
    · simp [is_external_or_absolute, h]
    · simp [is_external_or_absolute, h]
    · simp [is_external_or_absolute, h]
    · have hl' : (strTrim url).data = c :: ':' :: d :: r2 := hl
      rcases hd with hd | hd <;>
        simp [is_external_or_absolute, hl', ha, hd]
  unfold transform_path
  simp only [hx, if_true]

/-- C8 (witness): the amended theorem at the concrete reference
`mailto:a@b.com`, which is returned unchanged and resolved. -/
theorem transform_path_external_untouched_witness :
    transform_path [] "mailto:a@b.com" "/r" "/r" [] [] [] = ("mailto:a@b.com", true) ∧
    strTrim "mailto:a@b.com" = "mailto:a@b.com" := by
  refine ⟨?_, by decide⟩
  have := transform_path_external_untouched [] "mailto:a@b.com" "/r" "/r" [] [] []
    (by right; right; right; right; left; decide)
  rw [this]
  decide

/-! ## Claim C1 — mapping authority -/

/-- C1: a reference that is non-empty after trimming and not external, whose
resolution against the document directory re-expressed root-relatively is a
key of the rename mapping with a target existing on disk, is rewritten to
the mapped target re-expressed relative to the document directory with
resolved = true — for every document/attachment index, i.e. bypassing all
basename matching. -/
theorem transform_path_mapping_authority (fs : FS) (url md_dir root_dir target : String)
    (mapping : List (String × String)) (mks atts : List String)
    (hne : strTrim url ≠ "")
    (hext : is_external_or_absolute (strTrim url) = false)
    (hrelne : relPath (normPath (joinPath md_dir (strTrim url))) root_dir ≠ "")
    (hmap : mapping.lookup (relPath (normPath (joinPath md_dir (strTrim url))) root_dir)
      = some target)
    (hex : fsExists fs (joinPath root_dir target) = true) :
    transform_path fs url md_dir root_dir mapping mks atts
      = (relPath (joinPath root_dir target) md_dir, true) := by
  have hcond : (decide (strTrim url = "") || is_external_or_absolute (strTrim url)) = false := by
    simp [hne, hext]
  have hmapped : mappedStep fs (relPath (normPath (joinPath md_dir (strTrim url))) root_dir)
      md_dir root_dir mapping = some (relPath (joinPath root_dir target) md_dir, true) := by
    unfold mappedStep
    simp only [ne_eq, hrelne, not_false_eq_true, if_true, hmap, hex, if_pos]
  unfold transform_path
  simp only [hcond, Bool.false_eq_true, if_false]
  unfold transformPathCore
  simp only [hmapped]

/-- C1 (witness): the mapping entry `old/img.png -> new/img.png` with the
target on disk wins over an attachment index holding two other candidates
with the same basename. -/
theorem transform_path_mapping_authority_witness :
    transform_path [("/r/new/img.png", "")] "old/img.png" "/r" "/r"
      [("old/img.png", "new/img.png")] [] ["x/img.png", "y/img.png"]
      = ("new/img.png", true) := by
  have := transform_path_mapping_authority [("/r/new/img.png", "")] "old/img.png" "/r" "/r"
    "new/img.png" [("old/img.png", "new/img.png")] [] ["x/img.png", "y/img.png"]
    (by decide) (by decide) (by decide) (by decide) (by decide)
  rw [this]
  rfl

/-! ## Claim C3 — ambiguity safety for attachments -/

/-- C3: a non-document reference (basename not ending in `.md`) that the
rename mapping does not settle, whose basename is shared by two or more
attachment-index entries, and whose originally-resolved path does not exist
on disk, is returned unchanged with resolved = false. -/
theorem transform_path_ambiguity_safety (fs : FS) (url md_dir root_dir : String)
    (mapping : List (String × String)) (mks atts : List String)
    (hws : strTrim url = url) (hne : url ≠ "")
    (hext : is_external_or_absolute url = false)
    (hmd : strEndsWith (strToLower (baseName url)) ".md" = false)
    (hmap : ∀ v, mapping.lookup (relPath (normPath (joinPath md_dir url)) root_dir) = some v →
      fsExists fs (joinPath root_dir v) = false)
    (hdup : 2 ≤ (atts.filter (fun p => baseName p = baseName url)).length)
    (hnex : fsExists fs (normPath (joinPath md_dir url)) = false) :
    transform_path fs url md_dir root_dir mapping mks atts = (url, false) := by
  have hcond : (decide (url = "") || is_external_or_absolute url) = false := by
    simp [hne, hext]
  have hfind : find_attachment_by_filename (baseName url) atts = none := by
    unfold find_attachment_by_filename
    simp only []
    have h1 : ¬ (atts.filter (fun p => decide (baseName p = baseName url))).length = 1 := by
      have h2 : 2 ≤ (atts.filter (fun p => decide (baseName p = baseName url))).length := by
        simpa using hdup
      omega
    rw [if_neg h1]
  have hmapped : mappedStep fs (relPath (normPath (joinPath md_dir url)) root_dir)
      md_dir root_dir mapping = none := by
    unfold mappedStep
    by_cases hrel : relPath (normPath (joinPath md_dir url)) root_dir = ""
    · simp [hrel]
    · simp only [ne_eq, hrel, not_false_eq_true, if_true]
      cases hlk : mapping.lookup (relPath (normPath (joinPath md_dir url)) root_dir) with
      | none => rfl
      | some v => simp [hmap v hlk]
  have hstep : findStep url mks atts = none := by
    unfold findStep
    simp only [hmd, Bool.false_eq_true, if_false, hfind]
  unfold transform_path
  rw [hws]
  simp only [hcond, Bool.false_eq_true, if_false]
  unfold transformPathCore
  simp only [hmapped, hstep, indexStep, hnex, Bool.false_eq_true, if_false]

/-- C3 (witness): with two attachments `a/pic.png` and `b/pic.png` in the
index, a bare `pic.png` reference whose resolved path is absent from disk
is reported broken instead of being pointed at either candidate. -/
theorem transform_path_ambiguity_safety_witness :
    transform_path [] "pic.png" "/r" "/r" [] [] ["a/pic.png", "b/pic.png"]
      = ("pic.png", false) :=
  transform_path_ambiguity_safety [] "pic.png" "/r" "/r" [] [] ["a/pic.png", "b/pic.png"]
    (by decide) (by decide) (by decide) (by decide)
    (fun v hv => by simp at hv) (by decide) (by decide)

/-! ## Claim C9 — Markdown target extraction -/

theorem parseBracketLink_body {cs pre body after : List Char}
    (h : parseBracketLink cs = some (pre, body, after)) :
    body ≠ [] ∧ ∀ c ∈ body, c ≠ ')' := by
  unfold parseBracketLink at h
  split at h
  · rename_i r
    split at h
    · rename_i s hs
      split at h
      · exact absurd h (by simp)
      · rename_i b bs hbody
        split at h
        · rename_i rest hrest
          rw [Option.some.injEq, Prod.mk.injEq, Prod.mk.injEq] at h
          obtain ⟨-, hb, -⟩ := h
          subst hb
          refine ⟨by simp, fun c hc => ?_⟩
          rw [← hbody] at hc
          have := List.mem_takeWhile_imp hc
          simpa using this
        · exact absurd h (by simp)
    · exact absurd h (by simp)
  · exact absurd h (by simp)

theorem parseBracketLink_decomp {cs pre body after : List Char}
    (h : parseBracketLink cs = some (pre, body, after)) :
    cs = pre ++ body ++ ')' :: after := by
  unfold parseBracketLink at h
  split at h
  · rename_i r
    split at h
    · rename_i s hs
      split at h
      · exact absurd h (by simp)
      · rename_i b bs hbody
        split at h
        · rename_i rest hrest
          rw [Option.some.injEq, Prod.mk.injEq, Prod.mk.injEq] at h
          obtain ⟨hp, hb, ha⟩ := h
          subst hp; subst hb; subst ha
          have hr : (List.takeWhile (fun c => decide (c ≠ ']')) r) ++ ']' :: '(' :: s = r := by
            rw [← hs]
            exact List.takeWhile_append_dropWhile _ _
          have hs2 : b :: (bs ++ ')' :: rest) = s := by
            have h0 := List.takeWhile_append_dropWhile (fun c => decide (c ≠ ')')) s
            rw [hbody, hrest] at h0
            simpa using h0
          conv_lhs => rw [← hr]
          simp only [List.cons_append, List.append_assoc, List.nil_append, List.cons.injEq,
            true_and, List.append_cancel_left_eq]
          simpa using hs2.symm
        · exact absurd h (by simp)
    · exact absurd h (by simp)
  · exact absurd h (by simp)

theorem tryMdLink_body {cs pre body after : List Char}
    (h : tryMdLink cs = some (pre, body, after)) :
    body ≠ [] ∧ ∀ c ∈ body, c ≠ ')' := by
  unfold tryMdLink at h
  split at h
  · rename_i r
    split at h
    · rename_i pre' body' rest' hp
      rw [Option.some.injEq, Prod.mk.injEq, Prod.mk.injEq] at h
      obtain ⟨-, hb, -⟩ := h
      subst hb
      exact parseBracketLink_body hp
    · exact absurd h (by simp)
  · exact parseBracketLink_body h

theorem tryMdLink_decomp {cs pre body after : List Char}
    (h : tryMdLink cs = some (pre, body, after)) :
    cs = pre ++ body ++ ')' :: after := by
  unfold tryMdLink at h
  split at h
  · rename_i r
    split at h
    · rename_i pre' body' rest' hp
      rw [Option.some.injEq, Prod.mk.injEq, Prod.mk.injEq] at h
      obtain ⟨hpre, hb, ha⟩ := h
      subst hpre; subst hb; subst ha
      simpa using congrArg (fun l => '!' :: l) (parseBracketLink_decomp hp)
    · exact absurd h (by simp)
  · exact parseBracketLink_decomp h

/-- The matched group-2 occurrences collected by the scanner do not depend
on the body transformer. -/
theorem mdSubGo_bodies_congr (f g : BodyTf) :
    ∀ (fuel : Nat) (cs : List Char),
    (mdSubGo f fuel cs).2.2.2 = (mdSubGo g fuel cs).2.2.2 := by
  intro fuel
  induction fuel with
  | zero => intro cs; simp [mdSubGo]
  | succ n ih =>
    intro cs
    cases cs with
    | nil => simp [mdSubGo]
    | cons c rest =>
      cases htry : tryMdLink (c :: rest) with
      | none => simpa [mdSubGo, htry] using ih rest
      | some t =>
        obtain ⟨pre, body, after⟩ := t
        simpa [mdSubGo, htry] using ih after

theorem mdSubGo_bodies_shape (f : BodyTf) :
    ∀ (fuel : Nat) (cs : List Char) (b : List Char),
    b ∈ (mdSubGo f fuel cs).2.2.2 → b ≠ [] ∧ ∀ c ∈ b, c ≠ ')' := by
  intro fuel
  induction fuel with
  | zero => intro cs b hb; simp [mdSubGo] at hb
  | succ n ih =>
    intro cs b hb
    cases cs with
    | nil => simp [mdSubGo] at hb
    | cons c rest =>
      cases htry : tryMdLink (c :: rest) with
      | none =>
        simp only [mdSubGo, htry] at hb
        exact ih rest b hb
      | some t =>
        obtain ⟨pre, body, after⟩ := t
        simp only [mdSubGo, htry, List.mem_cons] at hb
        rcases hb with hb | hb
        · subst hb; exact tryMdLink_body htry
        · exact ih after b hb

/-- The target strings a Markdown-link match hands to the resolver: group 2
of the outer pattern, refined to its `url` sub-group by the inner wrapper
regex (matches whose body the inner regex rejects invoke no resolution). -/
def mdResolverTargets (s : String) : List String :=
  (mdBodies s).filterMap (fun b =>
    match innerMatch b with
    | some (_, url, _, _) => some (String.mk url)
    | none => none)

/-- C9 (counterexample): in `[x](a\).png)` the extracted target is `a\` —
the escaped closing parenthesis terminates the match — so the resolver is
handed `a\`, not the full `a\).png` the claim promises. -/
theorem md_escaped_paren_counterexample :
    mdResolverTargets "[x](a\\).png)" = ["a\\"] ∧ ("a\\" : String) ≠ "a\\).png" := by
  constructor
  · rfl
  · decide

/-- C9 (amended): for every inline link/image construct the extracted
target is everything up to the first closing parenthesis, escaped or not:
every matched target is nonempty and contains no `)` at all, so a
backslash-escaped `)` truncates the target instead of extending it. -/
theorem md_target_stops_at_any_paren (content : String) (b : List Char)
    (hb : b ∈ mdBodies content) : b ≠ [] ∧ ∀ c ∈ b, c ≠ ')' :=
  mdSubGo_bodies_shape _ _ _ b hb

/-- C9 (witness): the amended theorem at the concrete content
`[x](a.png)`, whose unique extracted target is `a.png`. -/
theorem md_target_stops_at_any_paren_witness :
    ("a.png" : String).toList ≠ [] ∧ ∀ c ∈ ("a.png" : String).toList, c ≠ ')' :=
  md_target_stops_at_any_paren "[x](a.png)" ("a.png" : String).toList (by decide)

/-! ## Claims C10/C6 — canonical name generation -/

theorem toList_mk (l : List Char) : (String.mk l).toList = l := rfl

theorem toList_append (a b : String) : (a ++ b).toList = a.toList ++ b.toList := rfl

theorem length_eq_toList_length (s : String) : s.length = s.toList.length := rfl

theorem natDigitsAux_digits (fuel : Nat) :
    ∀ (n : Nat), ∀ c ∈ natDigitsAux fuel n, c.isDigit = true := by
  induction fuel with
  | zero => intro n c hc; simp [natDigitsAux] at hc
  | succ k ih =>
    intro n c hc
    unfold natDigitsAux at hc
    split at hc
    · rename_i hlt
      simp only [List.mem_singleton] at hc
      subst hc
      interval_cases n <;> decide
    · simp only [List.mem_append, List.mem_singleton] at hc
      rcases hc with hc | hc
      · exact ih _ c hc
      · subst hc
        have h10 : n % 10 < 10 := Nat.mod_lt _ (by norm_num)
        generalize hm : n % 10 = m at h10 ⊢
        interval_cases m <;> decide

theorem natDigitsAux_length (fuel : Nat) :
    ∀ (n k : Nat), n < fuel → 1 ≤ k → n < 10 ^ k →
    (natDigitsAux fuel n).length ≤ k := by
  induction fuel with
  | zero => omega
  | succ m ih =>
    intro n k hfuel hk hn
    unfold natDigitsAux
    split
    · rename_i h10
      simpa using hk
    · rename_i h10
      push_neg at h10
      have hk2 : 2 ≤ k := by
        rcases Nat.lt_or_ge k 2 with hlt | hge
        · interval_cases k
          · omega
        · exact hge
      simp only [List.length_append, List.length_singleton]
      have hrec : (natDigitsAux m (n / 10)).length ≤ k - 1 := by
        apply ih
        · have : n / 10 < n := Nat.div_lt_self (by omega) (by norm_num)
          omega
        · omega
        · have hpow : 10 ^ k = 10 ^ (k - 1) * 10 := by
            rw [← pow_succ]
            congr 1
            omega
          rw [Nat.div_lt_iff_lt_mul (by norm_num)]
          omega
      omega

theorem padNum_digits (w n : Nat) : ∀ c ∈ (padNum w n).toList, c.isDigit = true := by
  intro c hc
  unfold padNum at hc
  rw [toList_mk, List.mem_append] at hc
  rcases hc with hc | hc
  · rw [List.eq_of_mem_replicate hc]
    decide
  · exact natDigitsAux_digits _ _ c hc

theorem padNum_length (w n : Nat) (hw : 1 ≤ w) (hn : n < 10 ^ w) :
    (padNum w n).toList.length = w := by
  unfold padNum
  rw [toList_mk, List.length_append, List.length_replicate]
  have := natDigitsAux_length (n + 1) n w (by omega) hw hn
  unfold natDigits
  omega

theorem clockBase_shape (c : Clock) (hv : c.Valid) :
    (clockBase c).toList.length = 17 ∧ ∀ ch ∈ (clockBase c).toList, ch.isDigit = true := by
  obtain ⟨h1, h2, h3, h4, h5, h6, h7, h8⟩ := hv
  unfold clockBase
  simp only [toList_append, List.length_append, List.mem_append]
  constructor
  · rw [padNum_length 4 c.year (by omega) (by omega),
      padNum_length 2 c.month (by omega) (by omega),
      padNum_length 2 c.day (by omega) (by omega),
      padNum_length 2 c.hour (by omega) (by omega),
      padNum_length 2 c.minute (by omega) (by omega),
      padNum_length 2 c.second (by omega) (by omega),
      padNum_length 3 c.ms (by omega) (by omega)]
  · intro ch hch
    rcases hch with ((((((h | h) | h) | h) | h) | h) | h) <;>
      exact padNum_digits _ _ ch h

/-- Characters kept by a digit run contain neither dots nor slashes. -/
theorem isDigit_not_special {c : Char} (h : c.isDigit = true) : c ≠ '.' ∧ c ≠ '/' := by
  constructor <;> rintro rfl <;> exact absurd h (by decide)

theorem takeWhile_append_all {p : Char → Bool} {l₁ l₂ : List Char}
    (h : ∀ c ∈ l₁, p c = true) :
    (l₁ ++ l₂).takeWhile p = l₁ ++ l₂.takeWhile p := by
  induction l₁ with
  | nil => simp
  | cons x xs ih =>
    have hx : p x = true := h x (by simp)
    simp only [List.cons_append, List.takeWhile_cons, hx, if_true]
    rw [ih (fun c hc => h c (by simp [hc]))]

theorem dropWhile_append_all {p : Char → Bool} {l₁ l₂ : List Char}
    (h : ∀ c ∈ l₁, p c = true) :
    (l₁ ++ l₂).dropWhile p = l₂.dropWhile p := by
  induction l₁ with
  | nil => simp
  | cons x xs ih =>
    have hx : p x = true := h x (by simp)
    simp only [List.cons_append, List.dropWhile_cons, hx, if_true]
    exact ih (fun c hc => h c (by simp [hc]))

theorem takeWhile_all {p : Char → Bool} {l : List Char} (h : ∀ c ∈ l, p c = true) :
    l.takeWhile p = l := by
  have h2 : (l ++ []).takeWhile p = l ++ List.takeWhile p [] := takeWhile_append_all h
  simpa using h2

/-- If the slash-free tail of a reversed path contains a dot, then the
dot-free head contains no slash (the last dot lies inside the basename). -/
theorem no_slash_before_dot (l : List Char)
    (h : '.' ∈ l.takeWhile (fun c => decide (c ≠ '/'))) :
    ∀ c ∈ l.takeWhile (fun c => decide (c ≠ '.')), c ≠ '/' := by
  induction l with
  | nil => simp at h
  | cons x xs ih =>
    by_cases hx : x = '.'
    · subst hx
      simp [List.takeWhile_cons]
    · by_cases hx2 : x = '/'
      · subst hx2
        simp [List.takeWhile_cons] at h
      · intro c hc
        simp only [List.takeWhile_cons, hx, hx2, ne_eq, not_false_eq_true,
          decide_eq_true_eq, if_true, List.mem_cons] at h hc
        rcases h with h | h
        · exact absurd h.symm hx
        · rcases hc with hc | hc
          · subst hc; exact hx2
          · exact ih h c hc

/-- Splitting a digit stem followed by a well-formed extension recovers
exactly the stem and the extension. -/
theorem splitExt_canonical (d : List Char) (ext : String)
    (hne : d ≠ []) (hdig : ∀ c ∈ d, c.isDigit = true)
    (hext : ext.toList = [] ∨ ∃ e, ext.toList = '.' :: e ∧ ∀ c ∈ e, c ≠ '.' ∧ c ≠ '/') :
    splitExt (String.mk d ++ ext) = (String.mk d, ext) := by
  have hnd : ∀ c ∈ d, c ≠ '.' ∧ c ≠ '/' := fun c hc => isDigit_not_special (hdig c hc)
  unfold splitExt
  simp only [toList_append, toList_mk]
  rcases hext with hext | ⟨e, he, hee⟩
  · rw [hext, List.append_nil]
    have hbase : (d.reverse.takeWhile (fun c => decide (c ≠ '/'))).reverse = d := by
      rw [takeWhile_all (fun c hc => by
        simp only [decide_eq_true_eq]
        exact (hnd c (List.mem_reverse.mp hc)).2), List.reverse_reverse]
    rw [hbase]
    have hany : (d.dropWhile (fun c => decide (c = '.'))).any (fun c => decide (c = '.')) = false := by
      rw [List.any_eq_false]
      intro c hc
      have hcd : c ∈ d := (List.dropWhile_sublist _).mem hc
      simp only [decide_eq_true_eq]
      exact (hnd c hcd).1
    rw [hany]
    simp only [Bool.false_eq_true, if_false]
    have hempty : ext = "" := by
      cases ext with
      | mk data => simp only [String.toList] at hext; subst hext; rfl
    subst hempty
    have happ : String.mk d ++ "" = String.mk d := by
      show String.mk (d ++ []) = String.mk d
      rw [List.append_nil]
    rw [happ]
  · rw [he]
    have hrev : (d ++ '.' :: e).reverse = e.reverse ++ '.' :: d.reverse := by
      simp
    rw [hrev]
    have hbase : ((e.reverse ++ '.' :: d.reverse).takeWhile
        (fun c => decide (c ≠ '/'))).reverse = d ++ '.' :: e := by
      rw [takeWhile_all (fun c hc => by
        simp only [decide_eq_true_eq]
        rcases List.mem_append.mp hc with hc | hc
        · exact (hee c (List.mem_reverse.mp hc)).2
        · rcases List.mem_cons.mp hc with hc | hc
          · subst hc; decide
          · exact (hnd c (List.mem_reverse.mp hc)).2)]
      rw [← hrev, List.reverse_reverse]
    rw [hbase]
    obtain ⟨c0, d', rfl⟩ : ∃ c0 d', d = c0 :: d' := by
      cases d with
      | nil => exact absurd rfl hne
      | cons a l => exact ⟨a, l, rfl⟩
    have hc0 : (decide (c0 = '.')) = false := by
      simp only [decide_eq_false_iff_not]
      exact (hnd c0 (by simp)).1
    rw [List.cons_append, List.dropWhile_cons, hc0]
    simp only [Bool.false_eq_true, if_false]
    have hany : ((c0 :: (d' ++ '.' :: e)).any (fun c => decide (c = '.'))) = true := by
      rw [List.any_eq_true]
      exact ⟨'.', by simp, by decide⟩
    rw [hany, if_pos rfl]
    have hafter : (e.reverse ++ '.' :: (c0 :: d').reverse).takeWhile
        (fun c => decide (c ≠ '.')) = e.reverse := by
      rw [takeWhile_append_all (fun c hc => by
        simp only [decide_eq_true_eq]
        exact (hee c (List.mem_reverse.mp hc)).1)]
      simp [List.takeWhile_cons]
    rw [hafter]
    simp only [Prod.mk.injEq]
    constructor
    · have hlen : ((c0 :: d') ++ '.' :: e).length - e.reverse.length - 1
          = (c0 :: d').length := by
        simp only [List.length_cons, List.length_append, List.length_reverse]
        omega
      have htake := List.take_left (c0 :: d') ('.' :: e)
      rw [show (c0 :: (d' ++ '.' :: e)) = ((c0 :: d') ++ '.' :: e) from rfl, hlen, htake]
    · rw [List.reverse_reverse]
      cases ext with
      | mk data =>
        simp only [String.toList] at he
        rw [he]

/-- The extension produced by `splitExt` is empty or a dot followed by a
dot-free, slash-free tail. -/
theorem splitExt_extOk (p : String) :
    ((splitExt p).2).toList = [] ∨
    ∃ e, ((splitExt p).2).toList = '.' :: e ∧ ∀ c ∈ e, c ≠ '.' ∧ c ≠ '/' := by
  unfold splitExt
  simp only []
  split
  · rename_i hany
    right
    refine ⟨(p.toList.reverse.takeWhile (fun c => decide (c ≠ '.'))).reverse, rfl, ?_⟩
    intro c hc
    rw [List.mem_reverse] at hc
    have hpc := List.mem_takeWhile_imp hc
    constructor
    · simpa using hpc
    · have hdot : '.' ∈ p.toList.reverse.takeWhile (fun c => decide (c ≠ '/')) := by
        rw [List.any_eq_true] at hany
        obtain ⟨x, hx, hx2⟩ := hany
        have hxd : x = '.' := by simpa using hx2
        subst hxd
        have := (List.dropWhile_sublist _).mem hx
        rw [List.mem_reverse] at this
        exact this
      exact no_slash_before_dot _ hdot c hc
  · left
    rfl

/-- `generate_unique_filename` postconditions: the returned name is fresh
with respect to both the `used` set and the target directory, and `used`
grows by exactly that name. -/
theorem generate_unique_filename_fresh (fs : FS) (dir ext : String) :
    ∀ (stream : List ClockRand) (used : List String)
      (name : String) (used' : List String) (rest : List ClockRand),
    generate_unique_filename fs dir ext used stream = some (name, used', rest) →
    name ∉ used ∧ used' = name :: used ∧ fsExists fs (joinPath dir name) = false := by
  intro stream
  induction stream with
  | nil => intro used name used' rest h; simp [generate_unique_filename] at h
  | cons entry tl ih =>
    intro used name used' rest h
    obtain ⟨c, rnd⟩ := entry
    unfold generate_unique_filename at h
    simp only [] at h
    split at h
    · exact ih used name used' rest h
    · rename_i hused
      split at h
      · rename_i hex
        rw [Option.some.injEq, Prod.mk.injEq, Prod.mk.injEq] at h
        obtain ⟨h1, h2, h3⟩ := h
        subst h1
        refine ⟨hused, h2.symm, ?_⟩
        simpa using hex
      · exact ih used name used' rest h

/-- `generate_unique_filename` returns a name built from one stream entry:
the 17-digit clock base, the 2-digit random suffix, then the extension. -/
theorem generate_unique_filename_shape (fs : FS) (dir ext : String) :
    ∀ (stream : List ClockRand) (used : List String)
      (name : String) (used' : List String) (rest : List ClockRand),
    generate_unique_filename fs dir ext used stream = some (name, used', rest) →
    ∃ c rnd, (c, rnd) ∈ stream ∧ name = clockBase c ++ padNum 2 rnd ++ ext := by
  intro stream
  induction stream with
  | nil => intro used name used' rest h; simp [generate_unique_filename] at h
  | cons entry tl ih =>
    intro used name used' rest h
    obtain ⟨c, rnd⟩ := entry
    unfold generate_unique_filename at h
    simp only [] at h
    split at h
    · obtain ⟨c', rnd', hmem, hn⟩ := ih used name used' rest h
      exact ⟨c', rnd', by simp [hmem], hn⟩
    · split at h
      · rw [Option.some.injEq, Prod.mk.injEq, Prod.mk.injEq] at h
        obtain ⟨h1, -, -⟩ := h
        exact ⟨c, rnd, by simp, by rw [← h1, String.append_assoc]⟩
      · obtain ⟨c', rnd', hmem, hn⟩ := ih used name used' rest h
        exact ⟨c', rnd', by simp [hmem], hn⟩

/-- Files whose basename is already canonical never appear in the
rename-candidate stream of `walk_attachments`. -/
theorem walk_attachments_excludes_normalized (fs2 : FS) (root se : String)
    (ae : Option (List String)) (aa : Bool) (a r : String)
    (h : (a, r) ∈ walk_attachments fs2 root se ae aa) :
    is_normalized_filename (baseName r) = false := by
  unfold walk_attachments at h
  rw [List.mem_filterMap] at h
  obtain ⟨e, -, he⟩ := h
  simp only [] at he
  split at he
  · exact absurd he (by simp)
  · rename_i rel hrel
    split at he
    · exact absurd he (by simp)
    · split at he
      · exact absurd he (by simp)
      · split at he
        · exact absurd he (by simp)
        · split at he
          · exact absurd he (by simp)
          · rename_i h4
            split at he
            · exact absurd he (by simp)
            · rw [Option.some.injEq, Prod.mk.injEq] at he
              obtain ⟨-, hr⟩ := he
              subst hr
              exact Bool.not_eq_true _ ▸ (by simpa using h4)

/-- C10: a name issued by `generate_unique_filename` for an extension taken
from `splitext` is a 19-digit stem (14-digit timestamp, 3-digit
milliseconds, 2-digit random suffix) followed by that extension, hence
satisfies `is_normalized_filename`; and `walk_attachments` never yields a
file with a canonical basename, so a file renamed in one run is excluded
from every later walk's candidate stream. -/
theorem canonical_names_normalized (fs : FS) (target_dir f0 : String)
    (used : List String) (stream : List ClockRand) (name : String)
    (used' : List String) (rest : List ClockRand)
    (hv : ∀ e ∈ stream, ClockRand.Valid e)
    (hgen : generate_unique_filename fs target_dir (splitExt f0).2 used stream
      = some (name, used', rest)) :
    (∃ c rnd, (c, rnd) ∈ stream ∧
      name = clockBase c ++ padNum 2 rnd ++ (splitExt f0).2) ∧
    (splitExt name).1.toList.length = 19 ∧
    (∀ ch ∈ (splitExt name).1.toList, ch.isDigit = true) ∧
    is_normalized_filename name = true ∧
    (∀ (fs2 : FS) (root se : String) (ae : Option (List String)) (aa : Bool)
      (a r : String), (a, r) ∈ walk_attachments fs2 root se ae aa →
      is_normalized_filename (baseName r) = false) := by
  obtain ⟨c, rnd, hmem, hname⟩ :=
    generate_unique_filename_shape fs target_dir ((splitExt f0).2) stream used
      name used' rest hgen
  obtain ⟨hcv, hrnd⟩ := hv (c, rnd) hmem
  obtain ⟨hlen17, hdig17⟩ := clockBase_shape c hcv
  have hd : ∀ ch ∈ (clockBase c ++ padNum 2 rnd).toList, ch.isDigit = true := by
    intro ch hch
    rw [toList_append, List.mem_append] at hch
    rcases hch with hch | hch
    · exact hdig17 ch hch
    · exact padNum_digits _ _ ch hch
  have hdlen : (clockBase c ++ padNum 2 rnd).toList.length = 19 := by
    rw [toList_append, List.length_append, hlen17,
      padNum_length 2 rnd (by omega) (by omega)]
  have hdne : (clockBase c ++ padNum 2 rnd).toList ≠ [] := by
    intro hcon
    rw [hcon] at hdlen
    simp at hdlen
  have hname2 : name = String.mk (clockBase c ++ padNum 2 rnd).toList ++ (splitExt f0).2 := by
    rw [hname]
    rfl
  have hsplit : splitExt name = (String.mk (clockBase c ++ padNum 2 rnd).toList, (splitExt f0).2) := by
    rw [hname2]
    exact splitExt_canonical _ _ hdne hd (splitExt_extOk f0)
  refine ⟨⟨c, rnd, hmem, hname⟩, ?_, ?_, ?_,
    walk_attachments_excludes_normalized⟩
  · rw [hsplit, toList_mk, hdlen]
  · rw [hsplit, toList_mk]
    exact hd
  · unfold is_normalized_filename
    rw [hsplit]
    simp only [Bool.and_eq_true]
    constructor
    · unfold pyIsDigit
      rw [Bool.and_eq_true]
      refine ⟨?_, ?_⟩
      · have hne2 : String.mk (clockBase c ++ padNum 2 rnd).toList ≠ "" := by
          intro hcon
          exact hdne (congrArg String.data hcon)
        simpa using hne2
      · rw [List.all_eq_true]
        intro ch hch
        exact hd ch (by simpa using hch)
    · rw [length_eq_toList_length, toList_mk, hdlen]
      simp

/-- C10 (witness): the theorem at a concrete clock sample, extension
`.png` taken from `splitext("photo.png")`, producing
`2024010203040500607.png`. -/
theorem canonical_names_normalized_witness :
    ((splitExt "2024010203040500607.png").1.toList.length = 19 ∧
      is_normalized_filename "2024010203040500607.png" = true) ∧
    generate_unique_filename [] "/r" (splitExt "photo.png").2 []
      [(⟨2024, 1, 2, 3, 4, 5, 6⟩, 7)]
      = some ("2024010203040500607.png", ["2024010203040500607.png"], []) := by
  have hgen : generate_unique_filename [] "/r" (splitExt "photo.png").2 []
      [(⟨2024, 1, 2, 3, 4, 5, 6⟩, 7)]
      = some ("2024010203040500607.png", ["2024010203040500607.png"], []) := by rfl
  have h := canonical_names_normalized [] "/r" "photo.png" []
    [(⟨2024, 1, 2, 3, 4, 5, 6⟩, 7)] "2024010203040500607.png"
    ["2024010203040500607.png"] [] (by decide) hgen
  exact ⟨⟨h.2.1, h.2.2.2.1⟩, hgen⟩

/-! ## Claim C6 — canonical-name uniqueness, no overwrites -/

theorem renameGo_invariant (root : String) :
    ∀ (atts : List (String × String)) (fs : FS) (used : List String)
      (mapping : List (String × String)) (renamed : Nat)
      (details : List RenameDetail) (stream : List ClockRand)
      (gen : List String) (ow : Bool) (res : RenameResult),
    renameGo root atts fs used mapping renamed details stream gen ow = some res →
    gen.Nodup → (∀ n ∈ gen, n ∈ used) → ow = false →
    res.generated.Nodup ∧ res.overwrote = false := by
  intro atts
  induction atts with
  | nil =>
    intro fs used mapping renamed details stream gen ow res h hnd hsub how
    unfold renameGo at h
    rw [Option.some.injEq] at h
    subst h
    exact ⟨hnd, how⟩
  | cons hd tl ih =>
    intro fs used mapping renamed details stream gen ow res h hnd hsub how
    obtain ⟨abs_old, rel_old⟩ := hd
    unfold renameGo at h
    simp only [] at h
    split at h
    · exact absurd h (by simp)
    · rename_i new_name used' stream' hgen2
      obtain ⟨hfresh, hused', hnex⟩ :=
        generate_unique_filename_fresh fs (dirName abs_old)
          ((splitExt (baseName abs_old)).2) stream used new_name used' stream' hgen2
      refine ih _ _ _ _ _ _ _ _ res h ?_ ?_ ?_
      · rw [List.nodup_append]
        refine ⟨hnd, by simp, ?_⟩
        intro n hn hn2
        simp only [List.mem_singleton] at hn2
        subst hn2
        exact hfresh (hsub n hn)
      · intro n hn
        rw [hused']
        rcases List.mem_append.mp hn with hn | hn
        · exact List.mem_cons_of_mem _ (hsub n hn)
        · simp only [List.mem_singleton] at hn
          subst hn
          exact List.mem_cons_self _ _
      · rw [how, hnex]
        rfl

/-- C6: within one run of `rename_attachments`, the generated canonical
filenames are pairwise distinct (including across renames in the same
millisecond — the shared `used` set forces a retry), and no generated name
equals a file existing in its target directory at generation time, so no
rename overwrites an existing file. -/
theorem rename_attachments_unique (fs : FS) (root se : String)
    (ae : Option (List String)) (aa : Bool) (stream : List ClockRand)
    (res : RenameResult)
    (h : rename_attachments fs root se ae aa stream = some res) :
    res.generated.Nodup ∧ res.overwrote = false := by
  unfold rename_attachments at h
  simp only [] at h
  split at h
  · exact absurd h (by simp)
  · rename_i r hr
    rw [Option.some.injEq] at h
    subst h
    have := renameGo_invariant root _ fs [] [] 0 [] stream [] false r hr
      (by simp) (by simp) rfl
    simpa using this

/-- C6 (witness): two attachments renamed with the same millisecond clock
sample; the duplicate random draw is rejected through the `used` set and
the two generated names differ. -/
theorem rename_attachments_unique_witness :
    (["2024010203040500607.png", "2024010203040500608.png"] : List String).Nodup ∧
    (false : Bool) = false := by
  have h : rename_attachments [("/r/a.png", ""), ("/r/b.png", "")] "/r" "/x"
      (some [".png"]) false
      [(⟨2024, 1, 2, 3, 4, 5, 6⟩, 7), (⟨2024, 1, 2, 3, 4, 5, 6⟩, 7),
        (⟨2024, 1, 2, 3, 4, 5, 6⟩, 8)]
      = some
        { mapping := [("a.png", "2024010203040500607.png"),
            ("b.png", "2024010203040500608.png")]
          detected := 2
          renamed := 2
          details := [⟨"a.png", "2024010203040500607.png", ""⟩,
            ⟨"b.png", "2024010203040500608.png", ""⟩]
          fs := [("/r/2024010203040500607.png", ""), ("/r/2024010203040500608.png", "")]
          stream := []
          generated := ["2024010203040500607.png", "2024010203040500608.png"]
          overwrote := false } := by rfl
  exact rename_attachments_unique _ _ _ _ _ _ _ h

/-! ## Claim C4 — category validation -/

/-- C4 (counterexample): `"other"` is neither a recognized category tag nor
`"all"`, yet `resolve_allowed_extensions` accepts it without raising — the
unknown-token check explicitly whitelists it, and normalization silently
falls back to the default `image` category. -/
theorem resolve_other_token_counterexample :
    resolve_allowed_extensions (some ["other"])
      = .ok ([".png", ".jpg", ".jpeg", ".gif", ".bmp", ".webp", ".svg", ".tif",
          ".tiff", ".heic"], false, ["image"], "图片") ∧
    isCategoryKey "other" = false ∧ ("other" : String) ≠ "all" := by
  refine ⟨by rfl, by rfl, by decide⟩

/-- C4 (amended): a categories list containing a non-empty token whose
lowercased form is neither a recognized category key nor `"all"` nor
`"other"` makes `run_pipeline` fail with the configuration error before any
filesystem mutation (the returned filesystem is the caller's, untouched);
conversely a list whose every token is empty or lowercases to a recognized
key or `"all"` or `"other"` never raises the configuration error. -/
theorem run_pipeline_category_validation (fs : FS) (root : String)
    (cats : Option (List String)) (se : String) (stream : List ClockRand)
    (dd : Option String) :
    ((∃ c ∈ cats.getD [], c ≠ "" ∧ ¬ isCategoryKey (strToLower c)
        ∧ strToLower c ≠ "all" ∧ strToLower c ≠ "other") →
      ∃ msg, run_pipeline fs root cats se stream dd = (fs, .error (.invalidCategory msg))) ∧
    ((∀ c ∈ cats.getD [], c = "" ∨ isCategoryKey (strToLower c) = true
        ∨ strToLower c = "all" ∨ strToLower c = "other") →
      ∀ msg, (run_pipeline fs root cats se stream dd).2 ≠ .error (.invalidCategory msg)) := by
  constructor
  · rintro ⟨c, hc, hbad⟩
    have hmem : c ∈ (cats.getD []).filter (fun c =>
        c ≠ "" ∧ ¬ isCategoryKey (strToLower c) ∧ strToLower c ≠ "all"
          ∧ strToLower c ≠ "other") := by
      rw [List.mem_filter]
      exact ⟨hc, by simpa using hbad⟩
    have hne : (cats.getD []).filter (fun c =>
        c ≠ "" ∧ ¬ isCategoryKey (strToLower c) ∧ strToLower c ≠ "all"
          ∧ strToLower c ≠ "other") ≠ [] := List.ne_nil_of_mem hmem
    have hres : resolve_allowed_extensions cats
        = .error (.invalidCategory ("Unknown rename categories: "
          ++ joinWith ", " ((cats.getD []).filter (fun c =>
            c ≠ "" ∧ ¬ isCategoryKey (strToLower c) ∧ strToLower c ≠ "all"
              ∧ strToLower c ≠ "other")))) := by
      unfold resolve_allowed_extensions
      simp only [ne_eq, hne, not_false_eq_true, if_true]
    exact ⟨_, by unfold run_pipeline; rw [hres]⟩
  · intro hgood msg
    have hnil : (cats.getD []).filter (fun c =>
        c ≠ "" ∧ ¬ isCategoryKey (strToLower c) ∧ strToLower c ≠ "all"
          ∧ strToLower c ≠ "other") = [] := by
      rw [List.filter_eq_nil_iff]
      intro c hc
      rcases hgood c hc with h | h | h | h <;> simp [h]
    have hres : resolve_allowed_extensions cats
        = .ok ((normalize_categories cats).foldl
            (fun acc cat => acc ++ ((RENAMING_CATEGORIES.lookup cat).getD [])) [],
          "all" ∈ normalize_categories cats, normalize_categories cats,
          category_label_from_types (some (normalize_categories cats))) := by
      unfold resolve_allowed_extensions
      simp only [ne_eq, hnil, not_true_eq_false, if_false]
    unfold run_pipeline
    rw [hres]
    simp only []
    split
    · simp
    · simp

/-- C4 (witness): the amended theorem at the unknown token `bogus` (the
pipeline fails with the configuration error and leaves the filesystem
untouched) and at the recognized list `["video"]` (no configuration
error). -/
theorem run_pipeline_category_validation_witness :
    (∃ msg, run_pipeline [("/r/a.png", "")] "/r" (some ["bogus"]) "/x" [] none
      = ([("/r/a.png", "")], .error (.invalidCategory msg))) ∧
    (∀ msg, (run_pipeline [] "/r" (some ["video"]) "/x" [] none).2
      ≠ .error (.invalidCategory msg)) := by
  constructor
  · exact (run_pipeline_category_validation [("/r/a.png", "")] "/r" (some ["bogus"])
      "/x" [] none).1 ⟨"bogus", by decide, by decide⟩
  · exact (run_pipeline_category_validation [] "/r" (some ["video"]) "/x" [] none).2
      (by decide)

/-! ## Claim C5 — duplicate groups come from the pre-rename index -/

/-- Key-count of an association list. -/
def countKey (n : String) (b : List (String × List String)) : Nat :=
  (b.filter (fun e => decide (e.1 = n))).length

theorem lookup_cons_self {v : List String} {tl : List (String × List String)} {n : String} :
    ((n, v) :: tl).lookup n = some v := by
  rw [List.lookup_cons, beq_self_eq_true]

theorem lookup_cons_ne {v : List String} {tl : List (String × List String)} {k n : String}
    (hk : k ≠ n) : ((k, v) :: tl).lookup n = tl.lookup n := by
  rw [List.lookup_cons, beq_eq_false_iff_ne.mpr (Ne.symm hk)]

theorem bucketsAdd_nil (k rel : String) : bucketsAdd k rel [] = [(k, [rel])] := rfl

theorem bucketsAdd_cons_self (k rel : String) (v : List String)
    (tl : List (String × List String)) :
    bucketsAdd k rel ((k, v) :: tl) = (k, v ++ [rel]) :: tl := by
  unfold bucketsAdd
  rw [if_pos rfl]

theorem bucketsAdd_cons_ne {k2 k : String} (rel : String) (v : List String)
    (tl : List (String × List String)) (hk2 : k2 ≠ k) :
    bucketsAdd k rel ((k2, v) :: tl) = (k2, v) :: bucketsAdd k rel tl := by
  unfold bucketsAdd
  rw [if_neg hk2, ← bucketsAdd.eq_def]

theorem mem_of_lookup {a : String} {v : List String} {l : List (String × List String)}
    (h : l.lookup a = some v) : (a, v) ∈ l := by
  induction l with
  | nil => simp [List.lookup] at h
  | cons hd tl ih =>
    obtain ⟨k, w⟩ := hd
    by_cases hk : k = a
    · subst hk
      rw [lookup_cons_self, Option.some.injEq] at h
      subst h
      exact List.mem_cons_self _ _
    · rw [lookup_cons_ne hk] at h
      exact List.mem_cons_of_mem _ (ih h)

theorem lookup_eq_none_of_countKey_zero {b : List (String × List String)} {n : String}
    (h : countKey n b = 0) : b.lookup n = none := by
  induction b with
  | nil => rfl
  | cons hd tl ih =>
    obtain ⟨k, v⟩ := hd
    by_cases hk : k = n
    · subst hk
      unfold countKey at h
      simp [List.filter_cons] at h
    · rw [lookup_cons_ne hk]
      apply ih
      unfold countKey at h ⊢
      simpa [List.filter_cons, hk] using h

theorem bucketsAdd_lookup_self (name rel : String) (b : List (String × List String)) :
    (bucketsAdd name rel b).lookup name = some ((b.lookup name).getD [] ++ [rel]) := by
  induction b with
  | nil =>
    rw [bucketsAdd_nil, lookup_cons_self]
    rfl
  | cons hd tl ih =>
    obtain ⟨k, v⟩ := hd
    by_cases hk : k = name
    · subst hk
      rw [bucketsAdd_cons_self, lookup_cons_self, lookup_cons_self]
      rfl
    · rw [bucketsAdd_cons_ne rel v tl hk, lookup_cons_ne hk, lookup_cons_ne hk]
      exact ih

theorem bucketsAdd_lookup_ne {k n : String} (rel : String)
    (b : List (String × List String)) (hk : k ≠ n) :
    (bucketsAdd k rel b).lookup n = b.lookup n := by
  induction b with
  | nil =>
    rw [bucketsAdd_nil, lookup_cons_ne hk]
  | cons hd tl ih =>
    obtain ⟨k2, v⟩ := hd
    by_cases hk2 : k2 = k
    · subst hk2
      rw [bucketsAdd_cons_self, lookup_cons_ne hk, lookup_cons_ne hk]
    · rw [bucketsAdd_cons_ne rel v tl hk2]
      by_cases hk3 : k2 = n
      · subst hk3
        rw [lookup_cons_self, lookup_cons_self]
      · rw [lookup_cons_ne hk3, lookup_cons_ne hk3]
        exact ih

theorem countKey_bucketsAdd_ne {k n : String} (rel : String)
    (b : List (String × List String)) (hk : k ≠ n) :
    countKey n (bucketsAdd k rel b) = countKey n b := by
  induction b with
  | nil =>
    rw [bucketsAdd_nil]
    unfold countKey
    simp [List.filter_cons, hk]
  | cons hd tl ih =>
    obtain ⟨k2, v⟩ := hd
    by_cases hk2 : k2 = k
    · subst hk2
      rw [bucketsAdd_cons_self]
      unfold countKey
      rw [List.filter_cons, List.filter_cons]
      split <;> simp
    · rw [bucketsAdd_cons_ne rel v tl hk2]
      unfold countKey at ih ⊢
      rw [List.filter_cons, List.filter_cons]
      split
      · simp only [List.length_cons]
        omega
      · exact ih

theorem countKey_bucketsAdd_self {k : String} (rel : String)
    (b : List (String × List String)) (h : countKey k b ≤ 1) :
    countKey k (bucketsAdd k rel b) ≤ 1 := by
  induction b with
  | nil =>
    rw [bucketsAdd_nil]
    unfold countKey
    simp [List.filter_cons]
  | cons hd tl ih =>
    obtain ⟨k2, v⟩ := hd
    by_cases hk2 : k2 = k
    · subst hk2
      rw [bucketsAdd_cons_self]
      unfold countKey at h ⊢
      rw [List.filter_cons] at h ⊢
      simpa using h
    · rw [bucketsAdd_cons_ne rel v tl hk2]
      unfold countKey at h ⊢
      rw [List.filter_cons] at h ⊢
      have hcond : (decide ((k2, v).1 = k)) = false := by
        simp [hk2]
      rw [hcond] at h ⊢
      simp only [Bool.false_eq_true, if_false] at h ⊢
      exact ih h

theorem buckets_countKey (rels : List String) (n : String) :
    countKey n (buckets rels) ≤ 1 := by
  induction rels using List.reverseRecOn with
  | nil => simp [buckets, countKey]
  | append_singleton l a ih =>
    unfold buckets at ih ⊢
    rw [List.foldl_append]
    simp only [List.foldl_cons, List.foldl_nil]
    by_cases ha : baseName a = n
    · subst ha
      exact countKey_bucketsAdd_self a _ ih
    · rw [countKey_bucketsAdd_ne a _ ha]
      exact ih

theorem buckets_lookup (rels : List String) (n : String) :
    (buckets rels).lookup n
      = if rels.filter (fun r => decide (baseName r = n)) = []
        then none else some (rels.filter (fun r => decide (baseName r = n))) := by
  induction rels using List.reverseRecOn with
  | nil => simp [buckets, List.lookup]
  | append_singleton l a ih =>
    unfold buckets at ih ⊢
    rw [List.foldl_append]
    simp only [List.foldl_cons, List.foldl_nil]
    by_cases ha : baseName a = n
    · subst ha
      rw [bucketsAdd_lookup_self, ih]
      have hgetD : (if l.filter (fun r => decide (baseName r = baseName a)) = []
          then (none : Option (List String))
          else some (l.filter (fun r => decide (baseName r = baseName a)))).getD []
          = l.filter (fun r => decide (baseName r = baseName a)) := by
        split
        · rename_i hnil
          rw [hnil]
          rfl
        · rfl
      rw [hgetD, List.filter_append]
      simp [List.filter_cons]
    · rw [bucketsAdd_lookup_ne a _ ha, ih, List.filter_append]
      simp [List.filter_cons, ha]

theorem filter_lookup_of_unique (p : String × List String → Bool)
    (b : List (String × List String)) (n : String)
    (hcount : countKey n b ≤ 1) :
    (b.filter p).lookup n
      = match b.lookup n with
        | some v => if p (n, v) then some v else none
        | none => none := by
  induction b with
  | nil => simp [List.lookup]
  | cons hd tl ih =>
    obtain ⟨k, v⟩ := hd
    by_cases hk : k = n
    · subst hk
      have htl0 : countKey k tl = 0 := by
        unfold countKey at hcount ⊢
        rw [List.filter_cons] at hcount
        have hcond : (decide ((k, v).1 = k)) = true := by simp
        rw [hcond] at hcount
        simp only [if_true, List.length_cons] at hcount
        omega
      have hfl : (tl.filter p).lookup k = none := by
        apply lookup_eq_none_of_countKey_zero
        unfold countKey at htl0 ⊢
        have hsub : ((tl.filter p).filter (fun e => decide (e.1 = k))).length
            ≤ (tl.filter (fun e => decide (e.1 = k))).length :=
          (List.Sublist.filter (fun e => decide (e.1 = k))
            (List.filter_sublist tl)).length_le
        omega
      rw [lookup_cons_self]
      simp only []
      rw [List.filter_cons]
      by_cases hp : p (k, v) = true
      · rw [if_pos hp, lookup_cons_self, if_pos hp]
      · rw [if_neg (by simpa using hp), hfl,
          if_neg (by simpa using hp)]
    · have htl : countKey n tl ≤ 1 := by
        unfold countKey at hcount ⊢
        rw [List.filter_cons] at hcount
        have hcond : (decide ((k, v).1 = n)) = false := by simp [hk]
        rw [hcond] at hcount
        simpa using hcount
      rw [lookup_cons_ne hk]
      rw [List.filter_cons]
      split
      · rw [lookup_cons_ne hk]
        exact ih htl
      · exact ih htl

theorem countKey_filter_le (p : String × List String → Bool)
    (b : List (String × List String)) (n : String) :
    countKey n (b.filter p) ≤ countKey n b := by
  unfold countKey
  exact (List.Sublist.filter (fun e => decide (e.1 = n)) (List.filter_sublist b)).length_le

theorem countKey_pos_of_lookup {b : List (String × List String)} {n : String}
    {v : List String} (h : b.lookup n = some v) : 1 ≤ countKey n b := by
  have hm : (n, v) ∈ b := mem_of_lookup h
  have hmf : (n, v) ∈ b.filter (fun e => decide (e.1 = n)) :=
    List.mem_filter.mpr ⟨hm, by simp⟩
  unfold countKey
  exact List.length_pos_of_mem hmf

theorem detect_duplicates_spec (index : Index) (n : String)
    (hdup : 2 ≤ ((index.markdown ++ index.attachments).filter
        (fun r => decide (baseName r = n))).length) :
    (detect_duplicate_filenames index).1.lookup n
        = some ((index.markdown ++ index.attachments).filter
            (fun r => decide (baseName r = n)))
      ∧ countKey n (detect_duplicate_filenames index).1 = 1 := by
  have hbl : (buckets (index.markdown ++ index.attachments)).lookup n
      = some ((index.markdown ++ index.attachments).filter
          (fun r => decide (baseName r = n))) := by
    rw [buckets_lookup, if_neg]
    intro hnil
    rw [hnil] at hdup
    simp at hdup
  have hgt : (decide (((index.markdown ++ index.attachments).filter
      (fun r => decide (baseName r = n))).length > 1)) = true := by
    rw [decide_eq_true_eq]
    omega
  have hlk : ((buckets (index.markdown ++ index.attachments)).filter
        (fun e => decide (e.2.length > 1))).lookup n
      = some ((index.markdown ++ index.attachments).filter
          (fun r => decide (baseName r = n))) := by
    rw [filter_lookup_of_unique _ _ _ (buckets_countKey _ n), hbl]
    simp only []
    rw [if_pos hgt]
  have hne : (buckets (index.markdown ++ index.attachments)).filter
      (fun e => decide (e.2.length > 1)) ≠ [] := by
    intro h0
    rw [h0] at hlk
    simp [List.lookup] at hlk
  unfold detect_duplicate_filenames
  simp only []
  rw [if_neg hne]
  refine ⟨hlk, ?_⟩
  show countKey n ((buckets (index.markdown ++ index.attachments)).filter
    (fun e => decide (e.2.length > 1))) = 1
  have h1 := countKey_pos_of_lookup hlk
  have h2 := countKey_filter_le (fun e => decide (e.2.length > 1))
    (buckets (index.markdown ++ index.attachments)) n
  have h3 := buckets_countKey (index.markdown ++ index.attachments) n
  omega

/-- **C5**: the duplicate-basename groups of the run summary come from the
file index built before any renaming: any basename occurring on at least two
pre-rename files yields exactly one summary group carrying exactly the
pre-rename root-relative paths of that basename, whatever the
rename/rewrite phases then do. -/
theorem run_pipeline_duplicates_pre_rename
    (fs : FS) (root_dir0 : String) (cats : Option (List String)) (se : String)
    (stream : List ClockRand) (dd : Option String) (s : Summary) (n : String)
    (hok : (run_pipeline fs root_dir0 cats se stream dd).2 = Except.ok s)
    (hdup : 2 ≤ (((build_file_index fs (normPath root_dir0)).markdown
        ++ (build_file_index fs (normPath root_dir0)).attachments).filter
          (fun r => decide (baseName r = n))).length) :
    s.duplicates.lookup n
        = some (((build_file_index fs (normPath root_dir0)).markdown
            ++ (build_file_index fs (normPath root_dir0)).attachments).filter
              (fun r => decide (baseName r = n)))
      ∧ countKey n s.duplicates = 1 := by
  have hs : s.duplicates
      = (detect_duplicate_filenames (build_file_index fs (normPath root_dir0))).1 := by
    unfold run_pipeline at hok
    simp only [] at hok
    split at hok
    · simp at hok
    · split at hok
      · simp at hok
      · simp only [] at hok
        rw [Except.ok.injEq] at hok
        rw [← hok]
  rw [hs]
  exact detect_duplicates_spec _ n hdup

def c5fs : FS := [("/r/a/pic.png", ""), ("/r/b/pic.png", "")]

def c5stream : List ClockRand := [(⟨2024, 1, 2, 3, 4, 5, 6⟩, 7), (⟨2024, 1, 2, 3, 4, 5, 6⟩, 8)]

def c5summary : Summary :=
  { root := "/r"
    rename_candidates := 2
    renamed_files := 2
    markdown_fixed := 0
    replacements := 0
    rename_categories := "图片"
    rename_category_keys := ["image"]
    duplicates := [("pic.png", ["a/pic.png", "b/pic.png"])]
    duplicate_table := "| 文件名 | 路径 |\n| --- | --- |\n| `pic.png` | a/pic.png<br>b/pic.png |"
    rename_details := [⟨"pic.png", "2024010203040500607.png", "a"⟩,
      ⟨"pic.png", "2024010203040500608.png", "b"⟩]
    fixed_files := []
    duplicate_list := [("pic.png", "a/pic.png"), ("pic.png", "b/pic.png")]
    invalid_references := []
    invalid_reference_count := 0 }

/-- Witness for C5: a tree with `a/pic.png` and `b/pic.png`; both get
renamed, yet the summary reports the single pre-rename `pic.png` group. -/
theorem run_pipeline_duplicates_pre_rename_witness :
    (run_pipeline c5fs "/r" (some ["image"]) "" c5stream none).2 = Except.ok c5summary
    ∧ c5summary.duplicates.lookup "pic.png" = some ["a/pic.png", "b/pic.png"]
    ∧ countKey "pic.png" c5summary.duplicates = 1 := by
  refine ⟨by rfl, ?_⟩
  have h := run_pipeline_duplicates_pre_rename c5fs "/r" (some ["image"]) "" c5stream none
    c5summary "pic.png" (by rfl) (by decide)
  refine ⟨?_, h.2⟩
  rw [h.1]
  decide

def summaryDuplicates (r : FS × Except PipelineErr Summary) :
    Option (List (String × List String)) :=
  match r.2 with
  | .ok s => some s.duplicates
  | .error _ => none

/-- The legacy `md_link_fixer.py` pipeline cited by C5 computes the
duplicate report from the index built AFTER renaming: on the same tree the
core pipeline reports the pre-existing `pic.png` duplicate group while the
legacy pipeline reports none. -/
theorem run_pipeline_legacy_duplicates_counterexample :
    summaryDuplicates (run_pipeline_legacy c5fs "/r" (some ["image"]) "" c5stream none)
      = some []
    ∧ summaryDuplicates (run_pipeline c5fs "/r" (some ["image"]) "" c5stream none)
      = some [("pic.png", ["a/pic.png", "b/pic.png"])] := by
  constructor
  · decide
  · decide

/-! ## Claim C7 — stability of the rewrite pass -/

theorem dropWhile_eq_self_of_takeWhile_nil {α} {p : α → Bool} {l : List α}
    (h : l.takeWhile p = []) : l.dropWhile p = l := by
  cases l with
  | nil => rfl
  | cons c t =>
    rw [List.takeWhile_cons] at h
    rw [List.dropWhile_cons]
    split at h
    · simp at h
    · rename_i hc
      rw [if_neg hc]

theorem dropWhile_dropWhile {α} (p : α → Bool) (l : List α) :
    (l.dropWhile p).dropWhile p = l.dropWhile p := by
  induction l with
  | nil => rfl
  | cons c t ih =>
    rw [List.dropWhile_cons]
    split
    · exact ih
    · rename_i hc
      rw [List.dropWhile_cons, if_neg hc]

theorem angleSplit_append (l : List Char) :
    (angleSplit l).1 ++ (angleSplit l).2 = l.dropWhile urlChar := by
  unfold angleSplit
  split
  · rename_i t ht
    rw [ht]
    rfl
  · rfl

theorem innerMatch_decomp {body pre url angle tl : List Char}
    (h : innerMatch body = some (pre, url, angle, tl)) :
    body = pre ++ url ++ angle ++ tl := by
  unfold innerMatch at h
  simp only [] at h
  split at h
  · exact absurd h (by simp)
  · rename_i r2 hrest
    split at h
    · rename_i htw
      rw [Option.some.injEq, Prod.mk.injEq, Prod.mk.injEq, Prod.mk.injEq] at h
      obtain ⟨hp, hu, ha, ht⟩ := h
      subst hp; subst hu; subst ha; subst ht
      have hr2 : (angleSplit r2).1 ++ (angleSplit r2).2 = r2 := by
        rw [angleSplit_append]
        exact dropWhile_eq_self_of_takeWhile_nil htw
      conv_lhs => rw [← List.takeWhile_append_dropWhile Char.isWhitespace body]
      rw [hrest]
      simp only [List.append_assoc]
      rw [hr2]
      rfl
    · rename_i u us htw
      rw [Option.some.injEq, Prod.mk.injEq, Prod.mk.injEq, Prod.mk.injEq] at h
      obtain ⟨hp, hu, ha, ht⟩ := h
      subst hp; subst hu; subst ha; subst ht
      have hX : (angleSplit (r2.dropWhile urlChar)).1
          ++ (angleSplit (r2.dropWhile urlChar)).2 = r2.dropWhile urlChar := by
        rw [angleSplit_append]
        exact dropWhile_dropWhile _ r2
      conv_lhs => rw [← List.takeWhile_append_dropWhile Char.isWhitespace body]
      rw [hrest]
      simp only [List.append_assoc]
      rw [hX, ← htw, List.takeWhile_append_dropWhile]
      rfl
  · rename_i c r hne hrest
    split at h
    · exact absurd h (by simp)
    · rw [Option.some.injEq, Prod.mk.injEq, Prod.mk.injEq, Prod.mk.injEq] at h
      obtain ⟨hp, hu, ha, ht⟩ := h
      subst hp; subst hu; subst ha; subst ht
      have hX : (angleSplit ((c :: r).dropWhile urlChar)).1
          ++ (angleSplit ((c :: r).dropWhile urlChar)).2
          = (c :: r).dropWhile urlChar := by
        rw [angleSplit_append]
        exact dropWhile_dropWhile _ _
      conv_lhs => rw [← List.takeWhile_append_dropWhile Char.isWhitespace body]
      rw [hrest]
      simp only [List.append_assoc]
      rw [hX, List.takeWhile_append_dropWhile]

theorem mdRepl_count_zero {fs : FS} {md_dir root_dir : String}
    {mapping : List (String × String)} {mps aps : List String} {b : List Char}
    (h : (mdRepl fs md_dir root_dir mapping mps aps b).1 = b) :
    (mdRepl fs md_dir root_dir mapping mps aps b).2.1 = 0 := by
  unfold mdRepl at h ⊢
  cases him : innerMatch b with
  | none => simp only [him]
  | some t =>
    obtain ⟨pre, url, angle, tl⟩ := t
    simp only [him] at h ⊢
    rw [innerMatch_decomp him] at h
    have hurl : (transform_path fs (String.mk url) md_dir root_dir mapping
        mps aps).1.toList = url := by
      simpa [List.append_cancel_left_eq] using h
    have heq2 : (transform_path fs (String.mk url) md_dir root_dir mapping
        mps aps).1 = String.mk url := congrArg String.mk hurl
    rw [if_neg (by simp [heq2])]

theorem htmlRepl_count_zero {fs : FS} {md_dir root_dir : String}
    {mapping : List (String × String)} {mps aps : List String} {b : List Char}
    (h : (htmlRepl fs md_dir root_dir mapping mps aps b).1 = b) :
    (htmlRepl fs md_dir root_dir mapping mps aps b).2.1 = 0 := by
  unfold htmlRepl at h ⊢
  simp only [] at h ⊢
  have heq2 : (transform_path fs (String.mk b) md_dir root_dir mapping
      mps aps).1 = String.mk b := congrArg String.mk h
  rw [if_neg (by simp [heq2])]

theorem attrTry_decomp {l nm p1 b : List Char} {q2 : Char} {rest : List Char}
    (h : attrTry l nm = some (p1, b, q2, rest)) :
    l = p1 ++ b ++ q2 :: rest := by
  unfold attrTry at h
  split at h
  · split at h
    · rename_i r h1
      split at h
      · rename_i q r2 h2
        split at h
        · split at h
          · exact absurd h (by simp)
          · rename_i b0 bs h3
            split at h
            · rename_i q2x restx h4
              split at h
              · rw [Option.some.injEq, Prod.mk.injEq, Prod.mk.injEq, Prod.mk.injEq] at h
                obtain ⟨hp, hb, hq, hr⟩ := h
                subst hp; subst hb; subst hq; subst hr
                have hd : l.drop nm.length
                    = (l.drop nm.length).takeWhile Char.isWhitespace ++ '=' :: r := by
                  conv_lhs => rw [← List.takeWhile_append_dropWhile Char.isWhitespace
                    (l.drop nm.length)]
                  rw [h1]
                have hr : r = r.takeWhile Char.isWhitespace ++ q :: r2 := by
                  conv_lhs => rw [← List.takeWhile_append_dropWhile Char.isWhitespace r]
                  rw [h2]
                have hr2 : r2 = (b0 :: bs) ++ q2x :: restx := by
                  conv_lhs => rw [← List.takeWhile_append_dropWhile quoteFree r2]
                  rw [h3, h4]
                conv_lhs => rw [← List.take_append_drop nm.length l]
                conv_lhs => rw [hd]
                conv_lhs => rw [hr]
                conv_lhs => rw [hr2]
                simp [List.append_assoc]
              · exact absurd h (by simp)
            · exact absurd h (by simp)
        · exact absurd h (by simp)
      · exact absurd h (by simp)
    · exact absurd h (by simp)
  · exact absurd h (by simp)

theorem attrCont_decomp {l p1 b : List Char} {q2 : Char} {rest : List Char}
    (h : attrCont l = some (p1, b, q2, rest)) :
    l = p1 ++ b ++ q2 :: rest := by
  unfold attrCont at h
  split at h
  · rename_i r hr
    rw [Option.some.injEq] at h
    subst h
    exact attrTry_decomp hr
  · exact attrTry_decomp h

theorem htmlLazy_decomp :
    ∀ (fuel : Nat) (acc cs : List Char) {pre body : List Char} {q2 : Char}
      {rest : List Char},
    htmlLazy fuel acc cs = some (pre, body, q2, rest) →
    pre ++ body ++ q2 :: rest = acc.reverse ++ cs := by
  intro fuel
  induction fuel with
  | zero =>
    intro acc cs pre body q2 rest h
    simp [htmlLazy] at h
  | succ n ih =>
    intro acc cs pre body q2 rest h
    cases cs with
    | nil => simp [htmlLazy] at h
    | cons c r =>
      simp only [htmlLazy] at h
      by_cases hw : c.isWhitespace
      · rw [if_pos hw] at h
        cases hat : attrCont r with
        | some t =>
          obtain ⟨pre2, b2, qq, rr⟩ := t
          rw [hat] at h
          simp only [] at h
          rw [Option.some.injEq, Prod.mk.injEq, Prod.mk.injEq, Prod.mk.injEq] at h
          obtain ⟨hp, hb, hq, hr⟩ := h
          subst hp; subst hb; subst hq; subst hr
          rw [attrCont_decomp hat]
          simp [List.append_assoc]
        | none =>
          rw [hat] at h
          simp only [] at h
          by_cases hg : c = '>'
          · rw [if_neg (by simp [hg])] at h
            exact absurd h (by simp)
          · rw [if_pos hg] at h
            rw [ih (c :: acc) r h]
            simp
      · rw [if_neg hw] at h
        by_cases hg : c = '>'
        · rw [if_neg (by simp [hg])] at h
          exact absurd h (by simp)
        · rw [if_pos hg] at h
          rw [ih (c :: acc) r h]
          simp

theorem tryHtml_decomp {cs pre body : List Char} {q2 : Char} {rest : List Char}
    (h : tryHtml cs = some (pre, body, q2, rest)) :
    cs = pre ++ body ++ q2 :: rest := by
  unfold tryHtml at h
  split at h
  · rename_i r
    simp only [] at h
    split at h
    · rename_i n hn
      split at h
      · rename_i hl
        rw [Option.some.injEq, Prod.mk.injEq, Prod.mk.injEq, Prod.mk.injEq] at h
        obtain ⟨hp, hb, hq, hr⟩ := h
        subst hp; subst hb; subst hq; subst hr
        have hd := htmlLazy_decomp _ _ _ hl
        simp only [List.reverse_nil, List.nil_append] at hd
        conv_lhs => rw [show r = r.take n ++ r.drop n from (List.take_append_drop n r).symm]
        rw [← hd]
        simp [List.append_assoc]
      · exact absurd h (by simp)
    · exact absurd h (by simp)
  · exact absurd h (by simp)

theorem mdSubGo_id (f : BodyTf) :
    ∀ (fuel : Nat) (cs : List Char),
    (∀ b ∈ (mdSubGo f fuel cs).2.2.2, (f b).1 = b ∧ (f b).2.1 = 0) →
    (mdSubGo f fuel cs).1 = cs ∧ (mdSubGo f fuel cs).2.1 = 0 := by
  intro fuel
  induction fuel with
  | zero =>
    intro cs _
    simp [mdSubGo]
  | succ n ih =>
    intro cs hb
    cases cs with
    | nil => simp [mdSubGo]
    | cons c rest =>
      cases htry : tryMdLink (c :: rest) with
      | none =>
        simp only [mdSubGo, htry] at hb ⊢
        obtain ⟨h1, h2⟩ := ih rest hb
        exact ⟨by rw [h1], h2⟩
      | some t =>
        obtain ⟨pre, body, after⟩ := t
        simp only [mdSubGo, htry] at hb ⊢
        have hbody := hb body (List.mem_cons_self _ _)
        have hrest : ∀ b ∈ (mdSubGo f n after).2.2.2, (f b).1 = b ∧ (f b).2.1 = 0 :=
          fun b h => hb b (List.mem_cons_of_mem _ h)
        obtain ⟨h1, h2⟩ := ih after hrest
        constructor
        · rw [hbody.1, h1]
          exact (tryMdLink_decomp htry).symm
        · rw [hbody.2, h2]

theorem htmlSubGo_bodies_congr (f g : BodyTf) :
    ∀ (fuel : Nat) (cs : List Char),
    (htmlSubGo f fuel cs).2.2.2 = (htmlSubGo g fuel cs).2.2.2 := by
  intro fuel
  induction fuel with
  | zero =>
    intro cs
    simp [htmlSubGo]
  | succ n ih =>
    intro cs
    cases cs with
    | nil => simp [htmlSubGo]
    | cons c rest =>
      cases htry : tryHtml (c :: rest) with
      | none => simpa [htmlSubGo, htry] using ih rest
      | some t =>
        obtain ⟨pre, body, q2, after⟩ := t
        simpa [htmlSubGo, htry] using ih after

theorem htmlSubGo_id (f : BodyTf) :
    ∀ (fuel : Nat) (cs : List Char),
    (∀ b ∈ (htmlSubGo f fuel cs).2.2.2, (f b).1 = b ∧ (f b).2.1 = 0) →
    (htmlSubGo f fuel cs).1 = cs ∧ (htmlSubGo f fuel cs).2.1 = 0 := by
  intro fuel
  induction fuel with
  | zero =>
    intro cs _
    simp [htmlSubGo]
  | succ n ih =>
    intro cs hb
    cases cs with
    | nil => simp [htmlSubGo]
    | cons c rest =>
      cases htry : tryHtml (c :: rest) with
      | none =>
        simp only [htmlSubGo, htry] at hb ⊢
        obtain ⟨h1, h2⟩ := ih rest hb
        exact ⟨by rw [h1], h2⟩
      | some t =>
        obtain ⟨pre, body, q2x, after⟩ := t
        simp only [htmlSubGo, htry] at hb ⊢
        have hbody := hb body (List.mem_cons_self _ _)
        have hrest : ∀ b ∈ (htmlSubGo f n after).2.2.2, (f b).1 = b ∧ (f b).2.1 = 0 :=
          fun b h => hb b (List.mem_cons_of_mem _ h)
        obtain ⟨h1, h2⟩ := ih after hrest
        constructor
        · rw [hbody.1, h1]
          exact (tryHtml_decomp htry).symm
        · rw [hbody.2, h2]

/-- **C7** (amended): the rewrite pass is stable — hence idempotent — exactly
on contents whose extracted Markdown and HTML targets the per-match rewriter
leaves unchanged: under that hypothesis `replace_in_markdown` returns the
content identically with a replacement count of zero.  (Unconditional
idempotence fails: see the cyclic-mapping counterexample.) -/
theorem replace_in_markdown_stable
    (fs : FS) (content : String) (md_abs_path root_dir : String)
    (mapping : List (String × String)) (mps aps : List String)
    (hmd : ∀ b ∈ mdBodies content,
      (mdRepl fs (dirName md_abs_path) root_dir mapping mps aps b).1 = b)
    (hhtml : ∀ b ∈ htmlBodies content,
      (htmlRepl fs (dirName md_abs_path) root_dir mapping mps aps b).1 = b) :
    (replace_in_markdown fs content md_abs_path root_dir mapping mps aps).1 = content
    ∧ (replace_in_markdown fs content md_abs_path root_dir mapping mps aps).2.1 = 0 := by
  have hmd2 : ∀ b ∈ (mdSubGo (mdRepl fs (dirName md_abs_path) root_dir mapping mps aps)
      content.toList.length content.toList).2.2.2,
      ((mdRepl fs (dirName md_abs_path) root_dir mapping mps aps) b).1 = b
      ∧ ((mdRepl fs (dirName md_abs_path) root_dir mapping mps aps) b).2.1 = 0 := by
    intro b hb
    rw [mdSubGo_bodies_congr _ (fun b => (b, 0, [])) content.toList.length
      content.toList] at hb
    exact ⟨hmd b hb, mdRepl_count_zero (hmd b hb)⟩
  have h1 := mdSubGo_id (mdRepl fs (dirName md_abs_path) root_dir mapping mps aps)
    content.toList.length content.toList hmd2
  have hhtml2 : ∀ b ∈ (htmlSubGo (htmlRepl fs (dirName md_abs_path) root_dir mapping mps aps)
      content.toList.length content.toList).2.2.2,
      ((htmlRepl fs (dirName md_abs_path) root_dir mapping mps aps) b).1 = b
      ∧ ((htmlRepl fs (dirName md_abs_path) root_dir mapping mps aps) b).2.1 = 0 := by
    intro b hb
    rw [htmlSubGo_bodies_congr _ (fun b => (b, 0, [])) content.toList.length
      content.toList] at hb
    exact ⟨hhtml b hb, htmlRepl_count_zero (hhtml b hb)⟩
  have h2 := htmlSubGo_id (htmlRepl fs (dirName md_abs_path) root_dir mapping mps aps)
    content.toList.length content.toList hhtml2
  have hmds1 : (mdSub (mdRepl fs (dirName md_abs_path) root_dir mapping mps aps)
      content).1 = content := by
    unfold mdSub
    simp only []
    rw [h1.1]
    rfl
  have hmds2 : (mdSub (mdRepl fs (dirName md_abs_path) root_dir mapping mps aps)
      content).2.1 = 0 := by
    unfold mdSub
    simp only []
    exact h1.2
  have hhs1 : (htmlSub (htmlRepl fs (dirName md_abs_path) root_dir mapping mps aps)
      content).1 = content := by
    unfold htmlSub
    simp only []
    rw [h2.1]
    rfl
  have hhs2 : (htmlSub (htmlRepl fs (dirName md_abs_path) root_dir mapping mps aps)
      content).2.1 = 0 := by
    unfold htmlSub
    simp only []
    exact h2.2
  unfold replace_in_markdown
  simp only []
  constructor
  · rw [hmds1]
    exact hhs1
  · rw [hmds1, hmds2, hhs2]

def c7wfs : FS := [("/r/doc.md", ""), ("/r/a.png", "")]

/-- Witness for C7: on an already-consistent tree (`[x](a.png)` with
`a.png` present and unmapped) the rewrite pass returns the content unchanged
with zero replacements. -/
theorem replace_in_markdown_stable_witness :
    (∀ b ∈ mdBodies "[x](a.png)",
      (mdRepl c7wfs (dirName "/r/doc.md") "/r" [] [] ["a.png"] b).1 = b)
    ∧ (∀ b ∈ htmlBodies "[x](a.png)",
      (htmlRepl c7wfs (dirName "/r/doc.md") "/r" [] [] ["a.png"] b).1 = b)
    ∧ (replace_in_markdown c7wfs "[x](a.png)" "/r/doc.md" "/r" [] [] ["a.png"]).1
        = "[x](a.png)"
    ∧ (replace_in_markdown c7wfs "[x](a.png)" "/r/doc.md" "/r" [] [] ["a.png"]).2.1 = 0 := by
  refine ⟨by decide, by decide, ?_, ?_⟩
  · exact (replace_in_markdown_stable c7wfs "[x](a.png)" "/r/doc.md" "/r" [] [] ["a.png"]
      (by decide) (by decide)).1
  · exact (replace_in_markdown_stable c7wfs "[x](a.png)" "/r/doc.md" "/r" [] [] ["a.png"]
      (by decide) (by decide)).2

def c7fs : FS := [("/r/doc.md", ""), ("/r/a.png", ""), ("/r/b.png", "")]

def c7map : List (String × String) := [("a.png", "b.png"), ("b.png", "a.png")]

/-- C7 (counterexample): under the cyclic rename mapping
`a.png ↦ b.png ↦ a.png` with both targets on disk, rewriting `[x](a.png)`
yields `[x](b.png)` with one counted replacement, and applying
`replace_in_markdown` again to that output performs another replacement and
returns a different string — the rewrite pass is not idempotent. -/
theorem replace_in_markdown_not_idempotent_counterexample :
    replace_in_markdown c7fs "[x](a.png)" "/r/doc.md" "/r" c7map [] ["a.png", "b.png"]
      = ("[x](b.png)", 1, [])
    ∧ replace_in_markdown c7fs "[x](b.png)" "/r/doc.md" "/r" c7map [] ["a.png", "b.png"]
      = ("[x](a.png)", 1, []) := by
  exact ⟨by decide, by decide⟩

end MdFix
